import Mathlib

/-!
Shallow embedding of `merbinnertree/__init__.py` (python-merbinnertree):
an immutable merklized binary radix tree with five node variants
(Empty, Inner, PrunedInner, FullLeaf, PrunedLeaf).

Byte strings are modelled as `List Nat` with each byte `< 256`.  The key
size of `SHA256MerbinnerTree` is `KEYSIZE = 32` bytes (256 bits).  The
two collaborator hash functions (`hash_func` and `calc_value_hash`, both
SHA-256 in the source) are abstract parameters `H vh : Bytes → Bytes` of
the definitions that use them.

Python exceptions are modelled by `Except MTError`.  Several methods of
the source raise `NameError` (they mention undefined names such as
`ininstance` or `key`); this is embedded faithfully with
`MTError.nameError`.
-/

namespace Merbinner

abbrev Bytes := List Nat

/-- `MerbinnerTree.KEYSIZE` of `SHA256MerbinnerTree`. -/
def KEYSIZE : Nat := 32

/-- The five node variants of `make_MerbinnerTree_class`:
`EmptyNodeClass`, `InnerNodeClass`, `PrunedInnerNodeClass`,
`FullLeafNodeClass`, `PrunedLeafNodeClass`. -/
inductive Node where
  | empty
  | inner (left right : Node)
  | prunedInner (prunedHash : Bytes)
  | fullLeaf (key value : Bytes)
  | prunedLeaf (key valueHash : Bytes)
deriving DecidableEq, Repr

/-- The Python exceptions that the embedded operations can raise.
`nameError s` stands for Python's `NameError` on the undefined name `s`
(the source mentions the undefined names `ininstance`, `key` and
`PrunedError`). -/
inductive MTError where
  | keyError (key : Bytes)
  | valueError
  | nameError (name : String)
  | attributeError (name : String)
  | notImplementedError
  | assertionError
deriving DecidableEq, Repr

/-- `MerbinnerTree.key_side`: `key[depth // 8] >> (7 - depth % 8) & 0b1`.
For a valid key (32 bytes) the index is in bounds whenever `depth < 256`;
out-of-bounds access is modelled by `getD _ 0` (such accesses never occur
on the inputs considered below, and for `depth ≥ 256` this yields side 0). -/
def keySide (key : Bytes) (depth : Nat) : Nat :=
  (key.getD (depth / 8) 0 >>> (7 - depth % 8)) &&& 1

/-- `key` attribute of a leaf node (`[]` on non-leaf nodes, which never
receive the access in the source). -/
def nodeKey : Node → Bytes
  | .fullLeaf k _ => k
  | .prunedLeaf k _ => k
  | _ => []

/-- `isinstance(n, cls.EmptyNodeClass)`. -/
def isEmptyN : Node → Bool
  | .empty => true
  | _ => false

/-- `isinstance(n, cls.LeafNodeClass)` (full or pruned leaf). -/
def isLeafN : Node → Bool
  | .fullLeaf _ _ => true
  | .prunedLeaf _ _ => true
  | _ => false

/-- The smart constructor `MerbinnerTreeInnerNodeClass.__new__`: collapses
`Inner(Empty, Empty/Leaf)` and `Inner(Empty/Leaf, Empty)` to the non-empty
child.  Its `assert` on the ordering of two leaf children is not modelled
here; the ordering invariant is established separately (`leafOrder`). -/
def innerCtor (left right : Node) : Node :=
  if isEmptyN left && (isEmptyN right || isLeafN right) then right
  else if isEmptyN right && (isEmptyN left || isLeafN left) then left
  else .inner left right

/-- `MerbinnerTreeInnerNodeClass._mt_from_leaf_nodes`, with explicit fuel.
The Python recursion increments `depth` and only terminates when the input
keys are pairwise distinguishable at bit depths `< 256`; then
`256 - depth` fuel always suffices and the fuel-exhausted branch (which
returns `Empty` for lists of length `> 1`) is unreachable. -/
def fromLeafNodesF : Nat → List Node → Nat → Node
  | 0, leafNodes, _ =>
    match leafNodes with
    | [ln] => ln
    | _ => .empty
  | fuel + 1, leafNodes, depth =>
    if 1 < leafNodes.length then
      let lefts := leafNodes.filter fun ln => decide (keySide (nodeKey ln) depth ≠ 0)
      let rights := leafNodes.filter fun ln => decide (keySide (nodeKey ln) depth = 0)
      innerCtor (fromLeafNodesF fuel lefts (depth + 1))
        (fromLeafNodesF fuel rights (depth + 1))
    else
      match leafNodes with
      | [ln] => ln
      | _ => .empty

/-- `_mt_from_leaf_nodes(leaf_nodes, depth)` with the canonical fuel. -/
def mtFromLeafNodes (leafNodes : List Node) (depth : Nat) : Node :=
  fromLeafNodesF (256 - depth) leafNodes depth

/-- The `hash` property (lines 41-47 of the source): it caches and returns
`self.calc_hash_data()` — the raw variant-specific byte layout; the
configured `hash_func` is never applied to it.  The layouts are those of
the `calc_hash_data` methods: Empty ↦ `b'\x00'`,
Inner ↦ `left.hash + right.hash + b'\x01'`,
FullLeaf ↦ `calc_value_hash(value) + key + b'\x02'`,
PrunedLeaf ↦ `value_hash + key + b'\x02'`.  `PrunedInnerNodeClass` does
not override `calc_hash_data`, so its `hash` raises `NotImplementedError`
(the base-class stub).  `vh` is the collaborator `calc_value_hash`. -/
def mtHash (vh : Bytes → Bytes) : Node → Except MTError Bytes
  | .empty => .ok [0x00]
  | .inner l r =>
    match mtHash vh l with
    | .error e => .error e
    | .ok hl =>
      match mtHash vh r with
      | .error e => .error e
      | .ok hr => .ok (hl ++ hr ++ [0x01])
  | .prunedInner _ => .error .notImplementedError
  | .fullLeaf k v => .ok (vh v ++ k ++ [0x02])
  | .prunedLeaf k h => .ok (h ++ k ++ [0x02])

/-- `_mt_get_keys(result, keys, depth, prove=False)` specialised to
`prove = False` (the only way any public method of the source calls it:
`prove_existence` has an empty body).  The Python method mutates the
`result` dict in place; here the list of entries added to `result` is
returned instead.  At a `PrunedInnerNodeClass` with a non-empty key list
the source evaluates the undefined name `key`
(`raise self.PrunedError('get', key, depth)`), i.e. raises `NameError`. -/
def mtGetKeys : Node → List Bytes → Nat → Except MTError (List (Bytes × Node))
  | .empty, _, _ => .ok []
  | .inner l r, keys, depth =>
    if keys ≠ [] then
      match mtGetKeys l (keys.filter fun k => decide (keySide k depth ≠ 0)) (depth + 1) with
      | .error e => .error e
      | .ok rl =>
        match mtGetKeys r (keys.filter fun k => decide (keySide k depth = 0)) (depth + 1) with
        | .error e => .error e
        | .ok rr => .ok (rl ++ rr)
    else .ok []
  | .prunedInner _, keys, _ =>
    if keys ≠ [] then .error (.nameError "key") else .ok []
  | .fullLeaf k v, keys, _ =>
    .ok (if k ∈ keys then [(k, Node.fullLeaf k v)] else [])
  | .prunedLeaf k h, keys, _ =>
    .ok (if k ∈ keys then [(k, Node.prunedLeaf k h)] else [])

/-- Lookup in the `result` dict built by `mtGetKeys`. -/
def lookupRes (key : Bytes) : List (Bytes × Node) → Option Node
  | [] => none
  | (k, n) :: rest => if k = key then some n else lookupRes key rest

/-- `MerbinnerTree.__getitem__`.  `check_key` raises for a wrong-length
key (`ValueError`; the `bytes` type check cannot fail in this embedding).
A missing entry gives `KeyError`; a `PrunedLeaf` entry reaches
`raise PrunedError` on line 99, a bare undefined module-level name, i.e.
`NameError`; any other node in the result would fail the `assert`. -/
def getItem (t : Node) (key : Bytes) : Except MTError Bytes :=
  if key.length ≠ KEYSIZE then .error .valueError
  else
    match mtGetKeys t [key] 0 with
    | .error e => .error e
    | .ok res =>
      match lookupRes key res with
      | none => .error (.keyError key)
      | some (.fullLeaf _ v) => .ok v
      | some (.prunedLeaf _ _) => .error (.nameError "PrunedError")
      | some _ => .error .assertionError

/-- `MerbinnerTree.__contains__`. -/
def containsKey (t : Node) (key : Bytes) : Except MTError Bool :=
  if key.length ≠ KEYSIZE then .error .valueError
  else
    match mtGetKeys t [key] 0 with
    | .error e => .error e
    | .ok res => .ok (lookupRes key res).isSome

/-- The item loop of `MerbinnerTreeLeafNodeClass._mt_put_keys`: walks the
batch tracking `add_ourself`, and accumulates the surviving leaf nodes and
the changed keys.  Returns `(final add_ourself, leaf_nodes, changed_keys)`. -/
def leafPutLoop (selfKey : Bytes) : List (Bytes × Node) → Bool → Bool × List Node × List Bytes
  | [], addOurself => (addOurself, [], [])
  | (key, newNode) :: rest, addOurself =>
    let hit := addOurself && decide (selfKey = key)
    let next := leafPutLoop selfKey rest (addOurself && decide (selfKey ≠ key))
    ((next.1 : Bool),
     (if isEmptyN newNode then [] else [newNode]) ++ next.2.1,
     (if hit then [key] else []) ++ (if isEmptyN newNode then [] else [key]) ++ next.2.2)

/-- `_mt_put_keys(changed_keys, items, depth, prove)` specialised to
`prove = False` (how `put` and `remove` call it).  The mutable
`changed_keys` set is modelled as a returned list (only membership is ever
queried).  The Python identity tests (`node is not self` against the Empty
singleton, `new_left is not self.left`) are modelled by structural
equality.  At a `PrunedInnerNodeClass` with a non-empty batch the source
evaluates the undefined name `key` (line 415), i.e. raises `NameError`. -/
def mtPutKeys : Node → List (Bytes × Node) → Nat → Except MTError (Node × List Bytes)
  | .empty, items, depth =>
    let kept := items.filter fun it => !isEmptyN it.2
    .ok (mtFromLeafNodes (kept.map Prod.snd) depth, kept.map Prod.fst)
  | .inner l r, items, depth =>
    if items ≠ [] then
      match mtPutKeys l (items.filter fun it => decide (keySide it.1 depth ≠ 0)) (depth + 1) with
      | .error e => .error e
      | .ok (nl, cl) =>
        match mtPutKeys r (items.filter fun it => decide (keySide it.1 depth = 0)) (depth + 1) with
        | .error e => .error e
        | .ok (nr, cr) =>
          .ok (if nl = l ∧ nr = r then Node.inner l r else innerCtor nl nr, cl ++ cr)
    else .ok (.inner l r, [])
  | .prunedInner h, items, _ =>
    if items ≠ [] then .error (.nameError "key") else .ok (.prunedInner h, [])
  | .fullLeaf k v, items, depth =>
    let res := leafPutLoop k items true
    .ok (mtFromLeafNodes (if res.1 then Node.fullLeaf k v :: res.2.1 else res.2.1) depth,
         res.2.2)
  | .prunedLeaf k h, items, depth =>
    let res := leafPutLoop k items true
    .ok (mtFromLeafNodes (if res.1 then Node.prunedLeaf k h :: res.2.1 else res.2.1) depth,
         res.2.2)

/-- `MerbinnerTree.put`: single-item batch with a `FullLeaf` replacement.
(`check_value` of `SHA256MerbinnerTree` only checks the `bytes` type and
cannot fail here; the `assert len(changed_keys) <= 1` always holds for a
one-item batch.) -/
def put (t : Node) (key value : Bytes) : Except MTError Node :=
  if key.length ≠ KEYSIZE then .error .valueError
  else
    match mtPutKeys t [(key, Node.fullLeaf key value)] 0 with
    | .error e => .error e
    | .ok (newTree, changed) =>
      if key ∈ changed then .ok newTree else .error (.keyError key)

/-- `MerbinnerTree.remove`: single-item batch with an `Empty` replacement. -/
def remove (t : Node) (key : Bytes) : Except MTError Node :=
  if key.length ≠ KEYSIZE then .error .valueError
  else
    match mtPutKeys t [(key, Node.empty)] 0 with
    | .error e => .error e
    | .ok (newTree, changed) =>
      if key ∈ changed then .ok newTree else .error (.keyError key)

/-- `MerbinnerTree.merge` (lines 179-185): its first statement is
`if not ininstance(tree, self.__class__.__base__)`, and `ininstance` is an
undefined name, so every call raises `NameError` before any hash is
compared. -/
def merge (_t _other : Node) : Except MTError Node :=
  .error (.nameError "ininstance")

/-- `MerbinnerTree.__new__(cls, items)` with a non-`None` item collection:
wraps each pair in a `FullLeafNodeClass` and calls `_mt_from_leaf_nodes`
at depth 0. -/
def fromItems (items : List (Bytes × Bytes)) : Node :=
  mtFromLeafNodes (items.map fun kv => Node.fullLeaf kv.1 kv.2) 0

/-- Repeated `put` starting from the empty tree (`MerbinnerTree()`),
applied left to right. -/
def putAll (items : List (Bytes × Bytes)) : Except MTError Node :=
  items.foldlM (fun t kv => put t kv.1 kv.2) Node.empty

/-- `_mt_iter_nodes`: depth-first, left subtree, right subtree, then the
node itself; overridden only by `InnerNodeClass`. -/
def iterNodes : Node → List Node
  | .inner l r => iterNodes l ++ iterNodes r ++ [.inner l r]
  | n => [n]

/-- `MerbinnerTree.keys()`: yields `node.key` of every iterated node that
has a `key` attribute — both full and pruned leaves have one. -/
def mtKeysIter (t : Node) : List Bytes :=
  (iterNodes t).filterMap fun n =>
    match n with
    | .fullLeaf k _ => some k
    | .prunedLeaf k _ => some k
    | _ => none

/-- `MerbinnerTree.values()`: yields `node.value` when the attribute
exists — only full leaves have a `value`. -/
def mtValuesIter (t : Node) : List Bytes :=
  (iterNodes t).filterMap fun n =>
    match n with
    | .fullLeaf _ v => some v
    | _ => none

/-- `MerbinnerTree.items()`: yields `(node.key, node.value)`; a
`PrunedLeaf` has a `key` but no `value`, so the tuple construction raises
`AttributeError` and the node is skipped. -/
def mtItemsIter (t : Node) : List (Bytes × Bytes)  :=
  (iterNodes t).filterMap fun n =>
    match n with
    | .fullLeaf k v => some (k, v)
    | _ => none

/-! ### The proof-generation path present in the source

`prove_contains` is exercised by the repository's tests but no class
defines it; the public stub `prove_existence` (lines 79-80) consists of a
docstring and no body, so it returns `None`.  The `prove=True` branches
of `_mt_get_keys` do exist and are embedded here as the source has them;
their return value need not be a tree node, so it lives in `PNode`. -/

/-- `MerbinnerTree.prove_existence` (lines 79-80): the body is a single
docstring, so every call returns `None` — never a tree. -/
def prove_existence (_t : Node) (_keys : List Bytes) : Option Node :=
  none

/-- A value returned by the `prove=True` path of `_mt_get_keys`: a proper
tree node, Python `None` (a full leaf that matched no queried key falls
off the end of its method), or an `InnerNodeClass` instance at least one
of whose children is such a non-node value. -/
inductive PNode where
  | pyNone : PNode
  | ofNode (n : Node) : PNode
  | innerObj (left right : PNode) : PNode
deriving DecidableEq, Repr

/-- `InnerNodeClass.__new__` applied to the `prove` path's values: when
both arguments are proper nodes this is the smart constructor; `None` and
malformed inner instances are no `EmptyNodeClass`/`LeafNodeClass`
instances, so neither collapse clause fires (and the `assert` passes) and
a plain instance holding them is built. -/
def innerCtorP : PNode → PNode → PNode
  | .ofNode l, .ofNode r => .ofNode (innerCtor l r)
  | l, r => .innerObj l r

/-- `_mt_get_keys(result, keys, depth, prove)` as called with
`prove = True`, embedded from the source (the `result` dict is not needed
by any theorem below and is omitted).  The module passes the flag
positionally (lines 86, 328-329); the leaf classes declare
`(self, result, keys, depth, ignore_missing=False, prove=False)`, so at a
full or pruned leaf the caller's `prove` lands in `ignore_missing` and
`prove` stays `False`: an unqueried full leaf returns `None` instead of a
pruned leaf.  An inner node with queried keys recurses and wraps the two
results in `InnerNodeClass`; with no queried keys it calls
`PrunedInnerNodeClass.from_inner_node` (line 336), a classmethod that is
defined nowhere, i.e. `AttributeError`.  A pruned inner node with queried
keys evaluates the undefined name `key` (`NameError`); with none it
returns itself, as does the empty node always. -/
def mtGetKeysProve : Node → List Bytes → Nat → Except MTError PNode
  | .empty, _, _ => .ok (.ofNode .empty)
  | .inner l r, keys, depth =>
    if keys ≠ [] then
      match mtGetKeysProve l (keys.filter fun k => decide (keySide k depth ≠ 0)) (depth + 1) with
      | .error e => .error e
      | .ok pl =>
        match mtGetKeysProve r (keys.filter fun k => decide (keySide k depth = 0)) (depth + 1) with
        | .error e => .error e
        | .ok pr => .ok (innerCtorP pl pr)
    else .error (.attributeError "from_inner_node")
  | .prunedInner h, keys, _ =>
    if keys ≠ [] then .error (.nameError "key") else .ok (.ofNode (.prunedInner h))
  | .fullLeaf k v, keys, _ =>
    if k ∈ keys then .ok (.ofNode (.fullLeaf k v)) else .ok .pyNone
  | .prunedLeaf k h, _, _ => .ok (.ofNode (.prunedLeaf k h))

/-! ### Structural predicates on trees -/

/-- A valid key: exactly `KEYSIZE` bytes, each `< 256`. -/
def validKey (k : Bytes) : Prop := k.length = KEYSIZE ∧ ∀ b ∈ k, b < 256

instance : DecidablePred validKey := fun k => by unfold validKey; infer_instance

/-- The leaf nodes of a tree, in depth-first order (pruned inner nodes
retain no leaves). -/
def leavesOf : Node → List Node
  | .inner l r => leavesOf l ++ leavesOf r
  | .fullLeaf k v => [.fullLeaf k v]
  | .prunedLeaf k h => [.prunedLeaf k h]
  | _ => []

/-- No pruned node (neither `PrunedInner` nor `PrunedLeaf`) anywhere. -/
def unprunedN : Node → Bool
  | .empty => true
  | .inner l r => unprunedN l && unprunedN r
  | .fullLeaf _ _ => true
  | _ => false

/-- Compactness (§3 invariant 2): no inner node that the smart constructor
would have collapsed. -/
def compactOK : Node → Bool
  | .inner l r =>
    !(isEmptyN l && (isEmptyN r || isLeafN r)) &&
    !(isEmptyN r && (isEmptyN l || isLeafN l)) &&
    compactOK l && compactOK r
  | _ => true

/-- Routing (§3 invariant 4): every leaf key agrees with the branch
choices on the path leading to it. -/
def pathsOK : Node → Nat → Bool
  | .inner l r, depth =>
    (leavesOf l).all (fun ln => decide (keySide (nodeKey ln) depth ≠ 0)) &&
    (leavesOf r).all (fun ln => decide (keySide (nodeKey ln) depth = 0)) &&
    pathsOK l (depth + 1) && pathsOK r (depth + 1)
  | _, _ => true

/-- All leaf keys of the tree are valid keys. -/
def leavesValid (t : Node) : Bool :=
  (leavesOf t).all fun ln => decide (validKey (nodeKey ln))

/-- No `PrunedInner` on the path that `key` routes along. -/
def noPrunedInnerPath : Node → Bytes → Nat → Bool
  | .inner l r, key, depth =>
    if keySide key depth ≠ 0 then noPrunedInnerPath l key (depth + 1)
    else noPrunedInnerPath r key (depth + 1)
  | .prunedInner _, _, _ => false
  | _, _, _ => true

/-- Python's `bytes.__gt__`: lexicographic comparison. -/
def bytesGt : Bytes → Bytes → Bool
  | [], _ => false
  | _ :: _, [] => true
  | x :: xs, y :: ys => if x = y then bytesGt xs ys else decide (y < x)

/-- The property guarded by the `assert` in
`MerbinnerTreeInnerNodeClass.__new__`: whenever both children of an inner
node are leaves, the left child's key is strictly greater than the right
child's key. -/
def leafOrder : Node → Bool
  | .inner l r =>
    (if isLeafN l && isLeafN r then bytesGt (nodeKey l) (nodeKey r) else true) &&
    leafOrder l && leafOrder r
  | _ => true

/-- Trees reachable through the public construction and mutation API:
the empty tree, bulk construction from distinct valid keys, and
successful `put` / `remove` steps with a valid key. -/
inductive Reachable : Node → Prop where
  | base : Reachable .empty
  | bulk (items : List (Bytes × Bytes))
      (hval : ∀ kv ∈ items, validKey kv.1)
      (hne : (items.map Prod.fst).Pairwise (· ≠ ·)) :
      Reachable (fromItems items)
  | putStep (t : Node) (k v : Bytes) (tNew : Node) (ht : Reachable t)
      (hk : validKey k) (hput : put t k v = .ok tNew) : Reachable tNew
  | removeStep (t : Node) (k : Bytes) (tNew : Node) (ht : Reachable t)
      (hk : validKey k) (hrem : remove t k = .ok tNew) : Reachable tNew

/-! ### Auxiliary notions used by the verification -/

/-- Keys `a` and `b` can be told apart by some side bit at depth `≥ d`
(and `< 256`, the number of key bits). -/
def sideDiffFrom (d : Nat) (a b : Bytes) : Prop :=
  ∃ j, d ≤ j ∧ j < 256 ∧ keySide a j ≠ keySide b j

/-- A list of leaf nodes whose keys are pairwise distinguishable at
depths `≥ d`; exactly what makes `_mt_from_leaf_nodes` terminate. -/
def distinctFromN (d : Nat) (L : List Node) : Prop :=
  L.Pairwise fun x y => sideDiffFrom d (nodeKey x) (nodeKey y)

/-- All elements are leaf nodes carrying valid keys. -/
def goodLeaves (L : List Node) : Prop :=
  ∀ ln ∈ L, isLeafN ln = true ∧ validKey (nodeKey ln)

/-- All keys in the list agree on every side bit at depths `< d` (they
share the path from the root down to depth `d`). -/
def agreeBelowN (d : Nat) (L : List Node) : Prop :=
  ∀ x ∈ L, ∀ y ∈ L, ∀ j, j < d → keySide (nodeKey x) j = keySide (nodeKey y) j

/-- Effect of a one-item batch `[(k, nd)]` on a leaf-node list: an
`Empty` replacement erases key `k`; a leaf replacement overwrites the
entry with key `k` or is appended. -/
def applyL (L : List Node) (k : Bytes) (nd : Node) : List Node :=
  if isEmptyN nd then L.filter fun ln => decide (nodeKey ln ≠ k)
  else if k ∈ L.map nodeKey then L.map fun ln => if nodeKey ln = k then nd else ln
  else L ++ [nd]

/-! ### Reference recursions for the iteration claim -/

/-- Keys of all leaf nodes, full and pruned, by direct recursion. -/
def allLeafKeys : Node → List Bytes
  | .inner l r => allLeafKeys l ++ allLeafKeys r
  | .fullLeaf k _ => [k]
  | .prunedLeaf k _ => [k]
  | _ => []

/-- Values of the full (unpruned) leaves only, by direct recursion. -/
def fullLeafValues : Node → List Bytes
  | .inner l r => fullLeafValues l ++ fullLeafValues r
  | .fullLeaf _ v => [v]
  | _ => []

/-- Key-value pairs of the full (unpruned) leaves only. -/
def fullLeafItems : Node → List (Bytes × Bytes)
  | .inner l r => fullLeafItems l ++ fullLeafItems r
  | .fullLeaf k v => [(k, v)]
  | _ => []

/-! ### Concrete keys and trees used to instantiate the theorems -/

/-- The 32-byte key `b'\x00' * 32`. -/
def k00 : Bytes := List.replicate 32 0

/-- The 32-byte key `b'\xff'.ljust(32, b'\x00')`. -/
def kFF : Bytes := 0xff :: List.replicate 31 0

/-- A two-leaf tree: `Inner(FullLeaf(kFF, b'b'), FullLeaf(k00, b'a'))`. -/
def wTree2 : Node := .inner (.fullLeaf kFF [98]) (.fullLeaf k00 [97])

/-- The 32-byte key `b'\x80'.ljust(32, b'\x00')`. -/
def k80 : Bytes := 0x80 :: List.replicate 31 0

/-- The 32-byte key `b'\xc0'.ljust(32, b'\x00')`. -/
def kC0 : Bytes := 0xc0 :: List.replicate 31 0

/-- A two-level tree whose left child is itself an inner node. -/
def wTreeDeep : Node :=
  .inner (.inner (.fullLeaf kC0 [1]) (.fullLeaf k80 [2])) (.fullLeaf k00 [97])

/-- A tree with a pruned inner node off the path of `kFF`. -/
def wTreePruned : Node := .inner (.fullLeaf kFF [98]) (.prunedInner [9])

/-! ## Lemmas: key side bits -/

theorem keySide_lt_two (k : Bytes) (d : Nat) : keySide k d < 2 := by
  unfold keySide
  rw [Nat.and_one_is_mod]
  exact Nat.mod_lt _ (by norm_num)

theorem keySide_eq_mod (k : Bytes) (d : Nat) :
    keySide k d = k.getD (d / 8) 0 / 2 ^ (7 - d % 8) % 2 := by
  unfold keySide
  rw [Nat.and_one_is_mod, Nat.shiftRight_eq_div_pow]

theorem keySide_zero_of_ge (k : Bytes) (hk : k.length = KEYSIZE) (d : Nat) (hd : 256 ≤ d) :
    keySide k d = 0 := by
  have h32 : k.length ≤ d / 8 := by rw [hk]; unfold KEYSIZE; omega
  rw [keySide_eq_mod, List.getD_eq_default _ _ h32]
  simp

theorem lt_256_of_keySide_ne (k : Bytes) (hk : k.length = KEYSIZE) (d : Nat)
    (h : keySide k d ≠ 0) : d < 256 := by
  by_contra hc
  exact h (keySide_zero_of_ge k hk d (by omega))

theorem byte_eq_of_sides (a b : Nat) (ha : a < 256) (hb : b < 256)
    (h : ∀ t, t < 8 → a / 2 ^ t % 2 = b / 2 ^ t % 2) : a = b := by
  apply Nat.eq_of_testBit_eq
  intro i
  by_cases hi : i < 8
  · rw [Nat.testBit_to_div_mod, Nat.testBit_to_div_mod, h i hi]
  · have h2 : (256 : Nat) ≤ 2 ^ i := by
      calc (256 : Nat) = 2 ^ 8 := by norm_num
        _ ≤ 2 ^ i := Nat.pow_le_pow_right (by norm_num) (by omega)
    rw [Nat.testBit_lt_two_pow (by omega), Nat.testBit_lt_two_pow (by omega)]

theorem key_eq_of_sides (a b : Bytes) (ha : validKey a) (hb : validKey b)
    (h : ∀ j, j < 256 → keySide a j = keySide b j) : a = b := by
  obtain ⟨hal, hab⟩ := ha
  obtain ⟨hbl, hbb⟩ := hb
  apply List.ext_getElem (by rw [hal, hbl])
  intro i h1 h2
  have hi : i < 32 := by rw [hal] at h1; exact h1
  apply byte_eq_of_sides _ _ (hab _ (List.getElem_mem h1)) (hbb _ (List.getElem_mem h2))
  intro t ht
  have hj := h (8 * i + (7 - t)) (by omega)
  rw [keySide_eq_mod, keySide_eq_mod] at hj
  have hdiv : (8 * i + (7 - t)) / 8 = i := by omega
  have hmod : 7 - (8 * i + (7 - t)) % 8 = t := by omega
  rw [hdiv, hmod] at hj
  rw [List.getD_eq_getElem _ _ h1, List.getD_eq_getElem _ _ h2] at hj
  exact hj

theorem validKey_sideDiff (a b : Bytes) (ha : validKey a) (hb : validKey b)
    (hne : a ≠ b) : sideDiffFrom 0 a b := by
  by_contra hc
  apply hne
  apply key_eq_of_sides a b ha hb
  intro j hj
  by_contra hne2
  exact hc ⟨j, Nat.zero_le _, hj, hne2⟩

theorem sideDiffFrom_symm (d : Nat) (a b : Bytes) (h : sideDiffFrom d a b) :
    sideDiffFrom d b a := by
  obtain ⟨j, h1, h2, h3⟩ := h
  exact ⟨j, h1, h2, fun he => h3 he.symm⟩

theorem sideDiffFrom_mono (d e : Nat) (hde : d ≤ e) (a b : Bytes)
    (h : sideDiffFrom e a b) : sideDiffFrom d a b := by
  obtain ⟨j, h1, h2, h3⟩ := h
  exact ⟨j, le_trans hde h1, h2, h3⟩

/-! ## Lemmas: list bookkeeping for the side-bit partition -/

theorem length_side_filters (g : Node → Nat) (l : List Node) :
    (l.filter fun x => decide (g x ≠ 0)).length +
      (l.filter fun x => decide (g x = 0)).length = l.length := by
  induction l with
  | nil => simp
  | cons a t ih =>
    rw [List.filter_cons, List.filter_cons]
    by_cases h : g a = 0
    · rw [if_neg (by simp [h]), if_pos (by simp [h])]
      simp only [List.length_cons]
      omega
    · rw [if_pos (by simp [h]), if_neg (by simp [h])]
      simp only [List.length_cons]
      omega

theorem distinct_lt_256 (d : Nat) (L : List Node) (h : distinctFromN d L)
    (hL : 1 < L.length) : d < 256 := by
  match L, hL with
  | a :: b :: rest, _ =>
    rw [distinctFromN, List.pairwise_cons] at h
    obtain ⟨j, h1, h2, _⟩ := h.1 b (by simp)
    omega

theorem goodLeaves_filter (p : Node → Bool) (L : List Node) (h : goodLeaves L) :
    goodLeaves (L.filter p) :=
  fun ln hln => h ln (List.mem_filter.mp hln).1

theorem distinctFromN_filter_side (d : Nat) (L : List Node) (p : Node → Bool)
    (h : distinctFromN d L)
    (hp : ∀ x ∈ L.filter p, ∀ y ∈ L.filter p,
      keySide (nodeKey x) d = keySide (nodeKey y) d) :
    distinctFromN (d + 1) (L.filter p) := by
  refine (h.filter p).imp_of_mem ?_
  intro a b ha hb hab
  obtain ⟨j, h1, h2, h3⟩ := hab
  rcases Nat.eq_or_lt_of_le h1 with he | hl
  · exact absurd (hp a ha b hb) (by rw [← he] at h3; exact h3)
  · exact ⟨j, hl, h2, h3⟩

theorem side_eq_one_of_ne (k : Bytes) (d : Nat) (h : keySide k d ≠ 0) :
    keySide k d = 1 := by
  have := keySide_lt_two k d
  omega

/-! ## Lemmas: `_mt_from_leaf_nodes` unfolding -/

theorem mtFromLeafNodes_nil (d : Nat) : mtFromLeafNodes [] d = .empty := by
  unfold mtFromLeafNodes
  cases h : 256 - d <;> simp [fromLeafNodesF]

theorem mtFromLeafNodes_single (ln : Node) (d : Nat) : mtFromLeafNodes [ln] d = ln := by
  unfold mtFromLeafNodes
  cases h : 256 - d <;> simp [fromLeafNodesF]

theorem mtFromLeafNodes_unfold (L : List Node) (d : Nat) (hL : 1 < L.length)
    (hd : d < 256) :
    mtFromLeafNodes L d =
      innerCtor
        (mtFromLeafNodes (L.filter fun ln => decide (keySide (nodeKey ln) d ≠ 0)) (d + 1))
        (mtFromLeafNodes (L.filter fun ln => decide (keySide (nodeKey ln) d = 0)) (d + 1)) := by
  unfold mtFromLeafNodes
  have h : 256 - d = (256 - (d + 1)) + 1 := by omega
  rw [h]
  simp only [fromLeafNodesF, hL, if_pos]

theorem innerCtor_of_ne_empty (l r : Node) (hl : isEmptyN l = false)
    (hr : isEmptyN r = false) : innerCtor l r = .inner l r := by
  simp [innerCtor, hl, hr]

theorem isEmptyN_of_isLeafN (n : Node) (h : isLeafN n = true) : isEmptyN n = false := by
  cases n <;> simp_all [isLeafN, isEmptyN]

/-- Shape of `_mt_from_leaf_nodes`: a non-empty list never builds `Empty`,
and a list of two or more leaves always builds an inner node. -/
theorem build_shape : ∀ n d L, 256 - d ≤ n → goodLeaves L → distinctFromN d L →
    (L ≠ [] → isEmptyN (mtFromLeafNodes L d) = false) ∧
    (1 < L.length → ∃ a b, mtFromLeafNodes L d = .inner a b) := by
  intro n
  induction n with
  | zero =>
    intro d L hn hg hdist
    constructor
    · intro hne
      cases L with
      | nil => exact absurd rfl hne
      | cons a t =>
        cases t with
        | nil => rw [mtFromLeafNodes_single]; exact isEmptyN_of_isLeafN a (hg a (by simp)).1
        | cons b r =>
          have := distinct_lt_256 d _ hdist (by simp)
          omega
    · intro hlen
      have := distinct_lt_256 d L hdist hlen
      omega
  | succ n ih =>
    intro d L hn hg hdist
    have main : 1 < L.length → ∃ a b, mtFromLeafNodes L d = .inner a b := by
      intro hlen
      have hd256 : d < 256 := distinct_lt_256 d L hdist hlen
      rw [mtFromLeafNodes_unfold L d hlen hd256]
      set lefts := L.filter fun ln => decide (keySide (nodeKey ln) d ≠ 0) with hlefts
      set rights := L.filter fun ln => decide (keySide (nodeKey ln) d = 0) with hrights
      have hsum : lefts.length + rights.length = L.length :=
        length_side_filters (fun ln => keySide (nodeKey ln) d) L
      have hgl : goodLeaves lefts := goodLeaves_filter _ L hg
      have hgr : goodLeaves rights := goodLeaves_filter _ L hg
      have hdl : distinctFromN (d + 1) lefts := by
        apply distinctFromN_filter_side d L _ hdist
        intro x hx y hy
        rw [side_eq_one_of_ne _ _ (by simpa using (List.mem_filter.mp hx).2),
          side_eq_one_of_ne _ _ (by simpa using (List.mem_filter.mp hy).2)]
      have hdr : distinctFromN (d + 1) rights := by
        apply distinctFromN_filter_side d L _ hdist
        intro x hx y hy
        rw [(by simpa using (List.mem_filter.mp hx).2 : keySide (nodeKey x) d = 0),
          (by simpa using (List.mem_filter.mp hy).2 : keySide (nodeKey y) d = 0)]
      have hn1 : 256 - (d + 1) ≤ n := by omega
      by_cases hl0 : lefts.length = 0
      · have hle : lefts = [] := List.length_eq_zero.mp hl0
        have hr2 : 1 < rights.length := by omega
        obtain ⟨a, b, hab⟩ := (ih (d + 1) rights hn1 hgr hdr).2 hr2
        have hcc : innerCtor Node.empty (Node.inner a b) =
            Node.inner Node.empty (Node.inner a b) := by
          simp [innerCtor, isEmptyN, isLeafN]
        rw [hle, mtFromLeafNodes_nil, hab, hcc]
        exact ⟨_, _, rfl⟩
      · by_cases hr0 : rights.length = 0
        · have hre : rights = [] := List.length_eq_zero.mp hr0
          have hl2 : 1 < lefts.length := by omega
          obtain ⟨a, b, hab⟩ := (ih (d + 1) lefts hn1 hgl hdl).2 hl2
          have hcc : innerCtor (Node.inner a b) Node.empty =
              Node.inner (Node.inner a b) Node.empty := by
            simp [innerCtor, isEmptyN, isLeafN]
          rw [hre, mtFromLeafNodes_nil, hab, hcc]
          exact ⟨_, _, rfl⟩
        · have hbl : isEmptyN (mtFromLeafNodes lefts (d + 1)) = false :=
            (ih (d + 1) lefts hn1 hgl hdl).1 (by intro h; rw [h] at hl0; simp at hl0)
          have hbr : isEmptyN (mtFromLeafNodes rights (d + 1)) = false :=
            (ih (d + 1) rights hn1 hgr hdr).1 (by intro h; rw [h] at hr0; simp at hr0)
          rw [innerCtor_of_ne_empty _ _ hbl hbr]
          exact ⟨_, _, rfl⟩
    refine ⟨?_, main⟩
    intro hne
    cases L with
    | nil => exact absurd rfl hne
    | cons a t =>
      cases t with
      | nil => rw [mtFromLeafNodes_single]; exact isEmptyN_of_isLeafN a (hg a (by simp)).1
      | cons b r =>
        obtain ⟨x, y, hxy⟩ := main (by simp)
        rw [hxy]; rfl

theorem build_perm_small (d : Nat) (L M : List Node) (hperm : L.Perm M)
    (hle : L.length ≤ 1) : mtFromLeafNodes L d = mtFromLeafNodes M d := by
  cases L with
  | nil =>
    rw [(List.nil_perm.mp hperm : M = [])]
  | cons a t =>
    cases t with
    | nil =>
      rw [(List.singleton_perm.mp hperm : [a] = M).symm]
    | cons b r => simp at hle

/-- `_mt_from_leaf_nodes` builds the same tree from any permutation of its
input: the tree shape is canonical in the leaf set. -/
theorem build_perm : ∀ n d L M, 256 - d ≤ n → distinctFromN d L → L.Perm M →
    mtFromLeafNodes L d = mtFromLeafNodes M d := by
  intro n
  induction n with
  | zero =>
    intro d L M hn hdist hperm
    apply build_perm_small d L M hperm
    by_contra hc
    have := distinct_lt_256 d L hdist (by omega)
    omega
  | succ n ih =>
    intro d L M hn hdist hperm
    by_cases hlen : 1 < L.length
    · have hd256 : d < 256 := distinct_lt_256 d L hdist hlen
      have hlenM : 1 < M.length := by rw [← hperm.length_eq]; exact hlen
      rw [mtFromLeafNodes_unfold L d hlen hd256, mtFromLeafNodes_unfold M d hlenM hd256]
      have hdl : distinctFromN (d + 1)
          (L.filter fun ln => decide (keySide (nodeKey ln) d ≠ 0)) := by
        apply distinctFromN_filter_side d L _ hdist
        intro x hx y hy
        rw [side_eq_one_of_ne _ _ (by simpa using (List.mem_filter.mp hx).2),
          side_eq_one_of_ne _ _ (by simpa using (List.mem_filter.mp hy).2)]
      have hdr : distinctFromN (d + 1)
          (L.filter fun ln => decide (keySide (nodeKey ln) d = 0)) := by
        apply distinctFromN_filter_side d L _ hdist
        intro x hx y hy
        rw [(by simpa using (List.mem_filter.mp hx).2 : keySide (nodeKey x) d = 0),
          (by simpa using (List.mem_filter.mp hy).2 : keySide (nodeKey y) d = 0)]
      rw [ih (d + 1) _ _ (by omega) hdl (hperm.filter _),
        ih (d + 1) _ _ (by omega) hdr (hperm.filter _)]
    · exact build_perm_small d L M hperm (by omega)

theorem distinct_lefts (d : Nat) (L : List Node) (h : distinctFromN d L) :
    distinctFromN (d + 1) (L.filter fun ln => decide (keySide (nodeKey ln) d ≠ 0)) := by
  apply distinctFromN_filter_side d L _ h
  intro x hx y hy
  rw [side_eq_one_of_ne _ _ (by simpa using (List.mem_filter.mp hx).2),
    side_eq_one_of_ne _ _ (by simpa using (List.mem_filter.mp hy).2)]

theorem distinct_rights (d : Nat) (L : List Node) (h : distinctFromN d L) :
    distinctFromN (d + 1) (L.filter fun ln => decide (keySide (nodeKey ln) d = 0)) := by
  apply distinctFromN_filter_side d L _ h
  intro x hx y hy
  rw [(by simpa using (List.mem_filter.mp hx).2 : keySide (nodeKey x) d = 0),
    (by simpa using (List.mem_filter.mp hy).2 : keySide (nodeKey y) d = 0)]

theorem mtGetKeys_nil_keys (t : Node) (d : Nat) : mtGetKeys t [] d = .ok [] := by
  cases t <;> simp [mtGetKeys]

theorem filter_key_over_ne (q : Bytes) (d : Nat) (L : List Node) (h : keySide q d ≠ 0) :
    ((L.filter fun ln => decide (keySide (nodeKey ln) d ≠ 0)).filter
      fun ln => decide (nodeKey ln = q)) = L.filter fun ln => decide (nodeKey ln = q) := by
  rw [List.filter_filter]
  apply List.filter_congr
  intro x hx
  by_cases hk : nodeKey x = q
  · simp [hk, h]
  · simp [hk]

theorem filter_key_over_eq (q : Bytes) (d : Nat) (L : List Node) (h : keySide q d = 0) :
    ((L.filter fun ln => decide (keySide (nodeKey ln) d = 0)).filter
      fun ln => decide (nodeKey ln = q)) = L.filter fun ln => decide (nodeKey ln = q) := by
  rw [List.filter_filter]
  apply List.filter_congr
  intro x hx
  by_cases hk : nodeKey x = q
  · simp [hk, h]
  · simp [hk]

theorem filter_key_none_ne (q : Bytes) (d : Nat) (L : List Node) (h : keySide q d ≠ 0) :
    ((L.filter fun ln => decide (keySide (nodeKey ln) d = 0)).filter
      fun ln => decide (nodeKey ln = q)) = [] := by
  rw [List.filter_filter]
  rw [List.filter_eq_nil_iff]
  intro x hx
  by_cases hk : nodeKey x = q
  · simp [hk, h]
  · simp [hk]

theorem filter_key_none_eq (q : Bytes) (d : Nat) (L : List Node) (h : keySide q d = 0) :
    ((L.filter fun ln => decide (keySide (nodeKey ln) d ≠ 0)).filter
      fun ln => decide (nodeKey ln = q)) = [] := by
  rw [List.filter_filter]
  rw [List.filter_eq_nil_iff]
  intro x hx
  by_cases hk : nodeKey x = q
  · simp [hk, h]
  · simp [hk]

/-- Looking a single key up in a tree built by `_mt_from_leaf_nodes`
finds exactly the leaves carrying that key. -/
theorem getKeys_build : ∀ n d L q, 256 - d ≤ n → goodLeaves L → distinctFromN d L →
    mtGetKeys (mtFromLeafNodes L d) [q] d =
      .ok ((L.filter fun ln => decide (nodeKey ln = q)).map fun ln => (q, ln)) := by
  intro n
  induction n with
  | zero =>
    intro d L q hn hg hdist
    cases L with
    | nil => rw [mtFromLeafNodes_nil]; simp [mtGetKeys]
    | cons a t =>
      cases t with
      | nil =>
        rw [mtFromLeafNodes_single]
        obtain ⟨hleaf, _⟩ := hg a (by simp)
        cases a with
        | fullLeaf k v =>
          by_cases hk : k = q <;>
            simp [mtGetKeys, nodeKey, List.filter_cons, hk]
        | prunedLeaf k h =>
          by_cases hk : k = q <;>
            simp [mtGetKeys, nodeKey, List.filter_cons, hk]
        | empty => simp [isLeafN] at hleaf
        | inner l r => simp [isLeafN] at hleaf
        | prunedInner h => simp [isLeafN] at hleaf
      | cons b r =>
        have := distinct_lt_256 d _ hdist (by simp)
        omega
  | succ n ih =>
    intro d L q hn hg hdist
    by_cases hlen : 1 < L.length
    · have hd256 : d < 256 := distinct_lt_256 d L hdist hlen
      rw [mtFromLeafNodes_unfold L d hlen hd256]
      set lefts := L.filter fun ln => decide (keySide (nodeKey ln) d ≠ 0) with hlefts
      set rights := L.filter fun ln => decide (keySide (nodeKey ln) d = 0) with hrights
      have hsum : lefts.length + rights.length = L.length :=
        length_side_filters (fun ln => keySide (nodeKey ln) d) L
      have hgl : goodLeaves lefts := goodLeaves_filter _ L hg
      have hgr : goodLeaves rights := goodLeaves_filter _ L hg
      have hdl : distinctFromN (d + 1) lefts := distinct_lefts d L hdist
      have hdr : distinctFromN (d + 1) rights := distinct_rights d L hdist
      have hn1 : 256 - (d + 1) ≤ n := by omega
      have hibl := ih (d + 1) lefts q hn1 hgl hdl
      have hibr := ih (d + 1) rights q hn1 hgr hdr
      -- the inner node the smart constructor produces
      have hkinds : innerCtor (mtFromLeafNodes lefts (d + 1)) (mtFromLeafNodes rights (d + 1)) =
          Node.inner (mtFromLeafNodes lefts (d + 1)) (mtFromLeafNodes rights (d + 1)) := by
        by_cases hl0 : lefts = []
        · have hr2 : 1 < rights.length := by
            rw [hl0] at hsum; simp at hsum; omega
          obtain ⟨x, y, hxy⟩ := (build_shape (n + 1) (d + 1) rights (by omega) hgr hdr).2 hr2
          rw [hl0, mtFromLeafNodes_nil, hxy]
          simp [innerCtor, isEmptyN, isLeafN]
        · by_cases hr0 : rights = []
          · have hl2 : 1 < lefts.length := by
              rw [hr0] at hsum; simp at hsum; omega
            obtain ⟨x, y, hxy⟩ := (build_shape (n + 1) (d + 1) lefts (by omega) hgl hdl).2 hl2
            rw [hr0, mtFromLeafNodes_nil, hxy]
            simp [innerCtor, isEmptyN, isLeafN]
          · exact innerCtor_of_ne_empty _ _
              ((build_shape (n + 1) (d + 1) lefts (by omega) hgl hdl).1 hl0)
              ((build_shape (n + 1) (d + 1) rights (by omega) hgr hdr).1 hr0)
      rw [hkinds]
      by_cases hq : keySide q d = 0
      · have hfl : ([q].filter fun k => decide (keySide k d ≠ 0)) = [] := by
          simp [List.filter, hq]
        have hfr : ([q].filter fun k => decide (keySide k d = 0)) = [q] := by
          simp [List.filter, hq]
        simp only [mtGetKeys, hfl, hfr, if_pos (by simp : ([q] : List Bytes) ≠ [])]
        rw [mtGetKeys_nil_keys, hibr, hrights, filter_key_over_eq q d L hq]
        simp
      · have hfl : ([q].filter fun k => decide (keySide k d ≠ 0)) = [q] := by
          simp [List.filter, hq]
        have hfr : ([q].filter fun k => decide (keySide k d = 0)) = [] := by
          simp [List.filter, hq]
        simp only [mtGetKeys, hfl, hfr, if_pos (by simp : ([q] : List Bytes) ≠ [])]
        rw [mtGetKeys_nil_keys, hibl, hlefts, filter_key_over_ne q d L hq]
        simp
    · cases L with
      | nil => rw [mtFromLeafNodes_nil]; simp [mtGetKeys]
      | cons a t =>
        cases t with
        | nil =>
          rw [mtFromLeafNodes_single]
          obtain ⟨hleaf, _⟩ := hg a (by simp)
          cases a with
          | fullLeaf k v =>
            by_cases hk : k = q <;>
              simp [mtGetKeys, nodeKey, List.filter_cons, hk]
          | prunedLeaf k h =>
            by_cases hk : k = q <;>
              simp [mtGetKeys, nodeKey, List.filter_cons, hk]
          | empty => simp [isLeafN] at hleaf
          | inner l r => simp [isLeafN] at hleaf
          | prunedInner h => simp [isLeafN] at hleaf
        | cons b r => simp at hlen

theorem ne_of_sideDiff (d : Nat) (a b : Bytes) (h : sideDiffFrom d a b) : a ≠ b := by
  obtain ⟨j, _, _, h3⟩ := h
  intro he
  rw [he] at h3
  exact h3 rfl

theorem mtPutKeys_nil_items (t : Node) (d : Nat) : mtPutKeys t [] d = .ok (t, []) := by
  cases t with
  | empty => simp [mtPutKeys, mtFromLeafNodes_nil]
  | inner l r => simp [mtPutKeys]
  | prunedInner h => simp [mtPutKeys]
  | fullLeaf k v => simp [mtPutKeys, leafPutLoop, mtFromLeafNodes_single]
  | prunedLeaf k h => simp [mtPutKeys, leafPutLoop, mtFromLeafNodes_single]

theorem nodeKey_replace (k : Bytes) (nd : Node) (hk : nodeKey nd = k) (ln : Node) :
    nodeKey (if nodeKey ln = k then nd else ln) = nodeKey ln := by
  by_cases h : nodeKey ln = k <;> simp [h, hk]

theorem mem_keys_filter_of_key (L : List Node) (k : Bytes) (pb : Bytes → Bool)
    (hpk : pb k = true) :
    (k ∈ (L.filter fun ln => pb (nodeKey ln)).map nodeKey) ↔ k ∈ L.map nodeKey := by
  simp only [List.mem_map]
  constructor
  · rintro ⟨ln, hln, he⟩
    exact ⟨ln, (List.mem_filter.mp hln).1, he⟩
  · rintro ⟨ln, hln, he⟩
    exact ⟨ln, List.mem_filter.mpr ⟨hln, by rw [he, hpk]⟩, he⟩

/-- The one-item batch effect commutes with a key-determined filter that
keeps key `k`. -/
theorem applyL_filter_true (L : List Node) (k : Bytes) (nd : Node)
    (hnd : nd = Node.empty ∨ (isEmptyN nd = false ∧ nodeKey nd = k))
    (pb : Bytes → Bool) (hpk : pb k = true) :
    (applyL L k nd).filter (fun ln => pb (nodeKey ln)) =
      applyL (L.filter fun ln => pb (nodeKey ln)) k nd := by
  rcases hnd with he | ⟨hne, hkey⟩
  · subst he
    simp only [applyL, isEmptyN, if_pos, List.filter_filter]
    apply List.filter_congr
    intro x _
    rw [Bool.and_comm]
  · simp only [applyL, hne, Bool.false_eq_true, if_false]
    by_cases hmem : k ∈ L.map nodeKey
    · rw [if_pos hmem, if_pos ((mem_keys_filter_of_key L k pb hpk).mpr hmem)]
      rw [List.filter_map]
      congr 1
      apply List.filter_congr
      intro x _
      simp only [Function.comp]
      rw [nodeKey_replace k nd hkey x]
    · rw [if_neg hmem,
        if_neg (fun hc => hmem ((mem_keys_filter_of_key L k pb hpk).mp hc))]
      rw [List.filter_append]
      congr 1
      simp [hkey, hpk]

/-- The one-item batch effect vanishes under a key-determined filter that
drops key `k`. -/
theorem applyL_filter_false (L : List Node) (k : Bytes) (nd : Node)
    (hnd : nd = Node.empty ∨ (isEmptyN nd = false ∧ nodeKey nd = k))
    (pb : Bytes → Bool) (hpk : pb k = false) :
    (applyL L k nd).filter (fun ln => pb (nodeKey ln)) =
      L.filter fun ln => pb (nodeKey ln) := by
  rcases hnd with he | ⟨hne, hkey⟩
  · subst he
    simp only [applyL, isEmptyN, if_pos, List.filter_filter]
    apply List.filter_congr
    intro x _
    by_cases hx : nodeKey x = k
    · rw [hx, hpk]; simp
    · simp [hx]
  · simp only [applyL, hne, Bool.false_eq_true, if_false]
    by_cases hmem : k ∈ L.map nodeKey
    · rw [if_pos hmem, List.filter_map]
      have hcg : (L.filter ((fun ln => pb (nodeKey ln)) ∘ fun ln =>
          if nodeKey ln = k then nd else ln)) = L.filter fun x => pb (nodeKey x) := by
        apply List.filter_congr
        intro x _
        simp only [Function.comp]
        rw [nodeKey_replace k nd hkey x]
      rw [hcg]
      have hid : List.map (fun ln => if nodeKey ln = k then nd else ln)
          (L.filter fun x => pb (nodeKey x)) =
          List.map id (L.filter fun x => pb (nodeKey x)) := by
        apply List.map_congr_left
        intro x hx
        have hxk : nodeKey x ≠ k := by
          intro hc
          have := (List.mem_filter.mp hx).2
          rw [hc, hpk] at this
          simp at this
        rw [if_neg hxk]
        rfl
      rw [hid, List.map_id]
    · rw [if_neg hmem, List.filter_append]
      simp [hkey, hpk]

theorem applyL_good (L : List Node) (k : Bytes) (nd : Node) (hg : goodLeaves L)
    (hnd : nd = Node.empty ∨ (isLeafN nd = true ∧ validKey (nodeKey nd) ∧ nodeKey nd = k)) :
    goodLeaves (applyL L k nd) := by
  rcases hnd with he | ⟨h1, h2, h3⟩
  · subst he
    simp only [applyL, isEmptyN, if_pos]
    exact goodLeaves_filter _ L hg
  · unfold applyL
    rw [if_neg (by cases nd <;> simp_all [isLeafN, isEmptyN])]
    by_cases hmem : k ∈ L.map nodeKey
    · rw [if_pos hmem]
      intro ln hln
      obtain ⟨x, hx, he⟩ := List.mem_map.mp hln
      by_cases hxk : nodeKey x = k
      · rw [← he, if_pos hxk]; exact ⟨h1, h2⟩
      · rw [← he, if_neg hxk]; exact hg x hx
    · rw [if_neg hmem]
      intro ln hln
      rcases List.mem_append.mp hln with h | h
      · exact hg ln h
      · rw [List.mem_singleton.mp h]; exact ⟨h1, h2⟩

theorem applyL_distinct (d : Nat) (L : List Node) (k : Bytes) (nd : Node)
    (hdist : distinctFromN d L)
    (hnd : nd = Node.empty ∨ nodeKey nd = k)
    (hdiff : ∀ ln ∈ L, nodeKey ln = k ∨ sideDiffFrom d (nodeKey ln) k) :
    distinctFromN d (applyL L k nd) := by
  unfold applyL
  by_cases hemp : isEmptyN nd
  · rw [if_pos hemp]
    exact hdist.filter _
  · rw [if_neg hemp]
    have hkey : nodeKey nd = k := by
      rcases hnd with he | h
      · subst he; simp [isEmptyN] at hemp
      · exact h
    by_cases hmem : k ∈ L.map nodeKey
    · rw [if_pos hmem]
      rw [distinctFromN, List.pairwise_map]
      apply hdist.imp_of_mem
      intro a b _ _ hab
      rw [nodeKey_replace k nd hkey a, nodeKey_replace k nd hkey b]
      exact hab
    · rw [if_neg hmem]
      rw [distinctFromN, List.pairwise_append]
      refine ⟨hdist, List.pairwise_singleton _ _, ?_⟩
      intro x hx y hy
      rw [List.mem_singleton.mp hy, hkey]
      rcases hdiff x hx with he | h
      · exfalso
        exact hmem (List.mem_map.mpr ⟨x, hx, he⟩)
      · exact h

/-- With pairwise-distinguishable keys, erasing one key removes at most
one element. -/
theorem filter_ne_key_len (d : Nat) (L : List Node) (k : Bytes)
    (hdist : distinctFromN d L) :
    L.length - 1 ≤ (L.filter fun ln => decide (nodeKey ln ≠ k)).length := by
  induction L with
  | nil => simp
  | cons a t ih =>
    rw [distinctFromN, List.pairwise_cons] at hdist
    rw [List.filter_cons]
    by_cases ha : nodeKey a = k
    · rw [if_neg (by simp [ha])]
      have ht : t.filter (fun ln => decide (nodeKey ln ≠ k)) = t := by
        rw [List.filter_eq_self]
        intro x hx
        have hne := ne_of_sideDiff d _ _ (hdist.1 x hx)
        have hxk : nodeKey x ≠ k := fun hc => hne (ha.trans hc.symm)
        simp [hxk]
      rw [ht]
      simp
    · rw [if_pos (by simp [ha])]
      have := ih hdist.2
      simp only [List.length_cons]
      omega

theorem innerCtor_empty_leaf (r : Node) (h : isLeafN r = true) :
    innerCtor .empty r = r := by
  cases r with
  | fullLeaf k v => rfl
  | prunedLeaf k h2 => rfl
  | empty => rfl
  | inner a b => simp [isLeafN] at h
  | prunedInner x => simp [isLeafN] at h

theorem innerCtor_leaf_empty (l : Node) (h : isLeafN l = true) :
    innerCtor l .empty = l := by
  cases l with
  | fullLeaf k v => rfl
  | prunedLeaf k h2 => rfl
  | empty => rfl
  | inner a b => simp [isLeafN] at h
  | prunedInner x => simp [isLeafN] at h

theorem ne_empty_of_isEmptyN_false (t : Node) (h : isEmptyN t = false) :
    t ≠ .empty := by
  cases t <;> simp_all [isEmptyN]

theorem isLeafN_ne_inner (t : Node) (h : isLeafN t = true) (x y : Node) :
    t ≠ .inner x y := by
  cases t <;> simp_all [isLeafN]

/-- For two or more pairwise-distinguishable leaves, the smart constructor
in `_mt_from_leaf_nodes` never collapses: the result is an inner node of
the two side builds. -/
theorem build_unfold_inner (n d : Nat) (L : List Node) (hn : 256 - d ≤ n)
    (hg : goodLeaves L) (hdist : distinctFromN d L) (hlen : 1 < L.length) :
    mtFromLeafNodes L d =
      .inner
        (mtFromLeafNodes (L.filter fun ln => decide (keySide (nodeKey ln) d ≠ 0)) (d + 1))
        (mtFromLeafNodes (L.filter fun ln => decide (keySide (nodeKey ln) d = 0)) (d + 1)) := by
  have hd256 := distinct_lt_256 d L hdist hlen
  rw [mtFromLeafNodes_unfold L d hlen hd256]
  set lefts := L.filter fun ln => decide (keySide (nodeKey ln) d ≠ 0) with hlefts
  set rights := L.filter fun ln => decide (keySide (nodeKey ln) d = 0) with hrights
  have hsum : lefts.length + rights.length = L.length :=
    length_side_filters (fun ln => keySide (nodeKey ln) d) L
  have hgl : goodLeaves lefts := goodLeaves_filter _ L hg
  have hgr : goodLeaves rights := goodLeaves_filter _ L hg
  have hdl : distinctFromN (d + 1) lefts := distinct_lefts d L hdist
  have hdr : distinctFromN (d + 1) rights := distinct_rights d L hdist
  by_cases hl0 : lefts = []
  · have hr2 : 1 < rights.length := by
      rw [hl0] at hsum; simp at hsum; omega
    obtain ⟨x, y, hxy⟩ := (build_shape n (d + 1) rights (by omega) hgr hdr).2 hr2
    rw [hl0, mtFromLeafNodes_nil, hxy]
    simp [innerCtor, isEmptyN, isLeafN]
  · by_cases hr0 : rights = []
    · have hl2 : 1 < lefts.length := by
        rw [hr0] at hsum; simp at hsum; omega
      obtain ⟨x, y, hxy⟩ := (build_shape n (d + 1) lefts (by omega) hgl hdl).2 hl2
      rw [hr0, mtFromLeafNodes_nil, hxy]
      simp [innerCtor, isEmptyN, isLeafN]
    · exact innerCtor_of_ne_empty _ _
        ((build_shape n (d + 1) lefts (by omega) hgl hdl).1 hl0)
        ((build_shape n (d + 1) rights (by omega) hgr hdr).1 hr0)

/-- The one-item batch `_mt_put_keys` on trees of at most one leaf. -/
theorem putKeys_build_small (d : Nat) (L : List Node) (k : Bytes) (nd : Node)
    (hle : L.length ≤ 1) (hg : goodLeaves L)
    (hnd : nd = Node.empty ∨ ∃ v, nd = Node.fullLeaf k v) :
    ∃ ch, mtPutKeys (mtFromLeafNodes L d) [(k, nd)] d =
        .ok (mtFromLeafNodes (applyL L k nd) d, ch) ∧
      (k ∈ ch ↔ (nd ≠ Node.empty ∨ k ∈ L.map nodeKey)) ∧ (∀ x ∈ ch, x = k) := by
  cases L with
  | nil =>
    rw [mtFromLeafNodes_nil]
    rcases hnd with he | ⟨v, he⟩
    · subst he
      refine ⟨[], ?_, by simp, by simp⟩
      simp [mtPutKeys, applyL, isEmptyN]
    · subst he
      refine ⟨[k], ?_, by simp, by simp⟩
      simp [mtPutKeys, applyL, isEmptyN]
  | cons l0 t =>
    cases t with
    | cons b r => simp at hle
    | nil =>
      rw [mtFromLeafNodes_single]
      obtain ⟨hleaf, hvalid⟩ := hg l0 (by simp)
      cases l0 with
      | empty => simp [isLeafN] at hleaf
      | inner x y => simp [isLeafN] at hleaf
      | prunedInner x => simp [isLeafN] at hleaf
      | fullLeaf k0 v0 =>
        by_cases hk0 : k0 = k
        · subst hk0
          rcases hnd with he | ⟨v, he⟩
          · subst he
            refine ⟨[k0], ?_, by simp [nodeKey], by simp⟩
            simp [mtPutKeys, leafPutLoop, applyL, isEmptyN, nodeKey, mtFromLeafNodes_nil]
          · subst he
            refine ⟨[k0, k0], ?_, by simp [nodeKey], by simp⟩
            simp [mtPutKeys, leafPutLoop, applyL, isEmptyN, nodeKey]
        · rcases hnd with he | ⟨v, he⟩
          · subst he
            refine ⟨[], ?_, by simp [nodeKey, hk0, Ne.symm hk0], by simp⟩
            simp [mtPutKeys, leafPutLoop, applyL, isEmptyN, nodeKey, hk0]
          · subst he
            refine ⟨[k], ?_, by simp [nodeKey], by simp⟩
            simp [mtPutKeys, leafPutLoop, applyL, isEmptyN, nodeKey, hk0, Ne.symm hk0]
      | prunedLeaf k0 h0 =>
        by_cases hk0 : k0 = k
        · subst hk0
          rcases hnd with he | ⟨v, he⟩
          · subst he
            refine ⟨[k0], ?_, by simp [nodeKey], by simp⟩
            simp [mtPutKeys, leafPutLoop, applyL, isEmptyN, nodeKey, mtFromLeafNodes_nil]
          · subst he
            refine ⟨[k0, k0], ?_, by simp [nodeKey], by simp⟩
            simp [mtPutKeys, leafPutLoop, applyL, isEmptyN, nodeKey]
        · rcases hnd with he | ⟨v, he⟩
          · subst he
            refine ⟨[], ?_, by simp [nodeKey, hk0, Ne.symm hk0], by simp⟩
            simp [mtPutKeys, leafPutLoop, applyL, isEmptyN, nodeKey, hk0]
          · subst he
            refine ⟨[k], ?_, by simp [nodeKey], by simp⟩
            simp [mtPutKeys, leafPutLoop, applyL, isEmptyN, nodeKey, hk0, Ne.symm hk0]

/-- The one-item batch `_mt_put_keys` on a canonical tree rebuilds the
canonical tree of the updated leaf list, reporting `k` as changed exactly
when a leaf is written or an existing key is removed. -/
theorem putKeys_build : ∀ n d L k nd, 256 - d ≤ n → goodLeaves L → distinctFromN d L →
    (nd = Node.empty ∨ ∃ v, nd = Node.fullLeaf k v) → validKey k →
    (∀ ln ∈ L, nodeKey ln = k ∨ sideDiffFrom d (nodeKey ln) k) →
    ∃ ch, mtPutKeys (mtFromLeafNodes L d) [(k, nd)] d =
        .ok (mtFromLeafNodes (applyL L k nd) d, ch) ∧
      (k ∈ ch ↔ (nd ≠ Node.empty ∨ k ∈ L.map nodeKey)) ∧ (∀ x ∈ ch, x = k) := by
  intro n
  induction n with
  | zero =>
    intro d L k nd hn hg hdist hnd hk hdiff
    apply putKeys_build_small d L k nd _ hg hnd
    by_contra hc
    have := distinct_lt_256 d L hdist (by omega)
    omega
  | succ n ih =>
    intro d L k nd hn hg hdist hnd hk hdiff
    by_cases hlen : 1 < L.length
    swap
    · exact putKeys_build_small d L k nd (by omega) hg hnd
    have hd256 : d < 256 := distinct_lt_256 d L hdist hlen
    have hnd2 : nd = Node.empty ∨ (isEmptyN nd = false ∧ nodeKey nd = k) := by
      rcases hnd with he | ⟨v, he⟩
      · exact Or.inl he
      · subst he; exact Or.inr ⟨rfl, rfl⟩
    have hndg : nd = Node.empty ∨
        (isLeafN nd = true ∧ validKey (nodeKey nd) ∧ nodeKey nd = k) := by
      rcases hnd with he | ⟨v, he⟩
      · exact Or.inl he
      · subst he; exact Or.inr ⟨rfl, hk, rfl⟩
    have hndk : nd = Node.empty ∨ nodeKey nd = k := by
      rcases hnd with he | ⟨v, he⟩
      · exact Or.inl he
      · subst he; exact Or.inr rfl
    have hgA : goodLeaves (applyL L k nd) := applyL_good L k nd hg hndg
    have hdA : distinctFromN d (applyL L k nd) := applyL_distinct d L k nd hdist hndk hdiff
    have hsum : (L.filter fun ln => decide (keySide (nodeKey ln) d ≠ 0)).length +
        (L.filter fun ln => decide (keySide (nodeKey ln) d = 0)).length = L.length :=
      length_side_filters (fun ln => keySide (nodeKey ln) d) L
    rw [build_unfold_inner (n + 1) d L hn hg hdist hlen]
    by_cases hq : keySide k d = 0
    · -- the batch key routes to the right subtree
      have hfil : ([(k, nd)].filter fun it => decide (keySide it.1 d ≠ 0)) = [] := by
        simp [hq]
      have hfir : ([(k, nd)].filter fun it => decide (keySide it.1 d = 0)) = [(k, nd)] := by
        simp [hq]
      have hdiffr : ∀ ln ∈ (L.filter fun ln => decide (keySide (nodeKey ln) d = 0)),
          nodeKey ln = k ∨ sideDiffFrom (d + 1) (nodeKey ln) k := by
        intro ln hln
        rcases hdiff ln (List.mem_filter.mp hln).1 with he | ⟨j, hj1, hj2, hj3⟩
        · exact Or.inl he
        · right
          rcases Nat.eq_or_lt_of_le hj1 with hje | hjl
          · exfalso
            apply hj3
            rw [← hje]
            rw [(by simpa using (List.mem_filter.mp hln).2 :
              keySide (nodeKey ln) d = 0), hq]
          · exact ⟨j, hjl, hj2, hj3⟩
      obtain ⟨ch1, hrec, hmem1, hall1⟩ := ih (d + 1)
        (L.filter fun ln => decide (keySide (nodeKey ln) d = 0)) k nd (by omega)
        (goodLeaves_filter _ L hg) (distinct_rights d L hdist) hnd hk hdiffr
      have hAl : ((applyL L k nd).filter fun ln => decide (keySide (nodeKey ln) d ≠ 0)) =
          L.filter fun ln => decide (keySide (nodeKey ln) d ≠ 0) :=
        applyL_filter_false L k nd hnd2 (fun b => decide (keySide b d ≠ 0)) (by simp [hq])
      have hAr : ((applyL L k nd).filter fun ln => decide (keySide (nodeKey ln) d = 0)) =
          applyL (L.filter fun ln => decide (keySide (nodeKey ln) d = 0)) k nd :=
        applyL_filter_true L k nd hnd2 (fun b => decide (keySide b d = 0)) (by simp [hq])
      have hmemL : (k ∈ (L.filter fun ln =>
          decide (keySide (nodeKey ln) d = 0)).map nodeKey) ↔ k ∈ L.map nodeKey :=
        mem_keys_filter_of_key L k (fun b => decide (keySide b d = 0)) (by simp [hq])
      by_cases hA2 : 1 < (applyL L k nd).length
      · have hAinner : mtFromLeafNodes (applyL L k nd) d =
            .inner
              (mtFromLeafNodes (L.filter fun ln =>
                decide (keySide (nodeKey ln) d ≠ 0)) (d + 1))
              (mtFromLeafNodes (applyL (L.filter fun ln =>
                decide (keySide (nodeKey ln) d = 0)) k nd) (d + 1)) := by
          rw [build_unfold_inner (n + 1) d _ hn hgA hdA hA2, hAl, hAr]
        have hplain : mtFromLeafNodes (applyL L k nd) d =
            innerCtor
              (mtFromLeafNodes (L.filter fun ln =>
                decide (keySide (nodeKey ln) d ≠ 0)) (d + 1))
              (mtFromLeafNodes (applyL (L.filter fun ln =>
                decide (keySide (nodeKey ln) d = 0)) k nd) (d + 1)) := by
          rw [mtFromLeafNodes_unfold _ d hA2 hd256, hAl, hAr]
        refine ⟨[] ++ ch1, ?_,
          by simp only [List.nil_append]; rw [hmem1]; exact or_congr Iff.rfl hmemL,
          by simpa using hall1⟩
        simp only [mtPutKeys, hfil, hfir, hrec, mtPutKeys_nil_items,
          if_pos (List.cons_ne_nil (k, nd) [])]
        by_cases hif : mtFromLeafNodes (applyL (L.filter fun ln =>
            decide (keySide (nodeKey ln) d = 0)) k nd) (d + 1) =
            mtFromLeafNodes (L.filter fun ln =>
              decide (keySide (nodeKey ln) d = 0)) (d + 1)
        · rw [if_pos (And.intro trivial hif), hAinner, hif]
        · rw [if_neg (fun hc => hif hc.2), hAinner, ← hplain.symm.trans hAinner]
      · -- a removal that leaves at most one leaf
        have hAe : nd = Node.empty := by
          rcases hnd with he | ⟨v, he⟩
          · exact he
          · exfalso
            apply hA2
            subst he
            unfold applyL
            rw [if_neg (by simp [isEmptyN])]
            by_cases hmem : k ∈ L.map nodeKey
            · rw [if_pos hmem, List.length_map]
              exact hlen
            · rw [if_neg hmem, List.length_append]
              simp only [List.length_singleton]
              omega
        have hA1 : (applyL L k nd).length = 1 := by
          have hlb := filter_ne_key_len d L k hdist
          subst hAe
          unfold applyL at hA2 ⊢
          rw [if_pos (by simp [isEmptyN])] at hA2 ⊢
          simp only [Nat.not_lt] at hA2
          omega
        obtain ⟨e, hAeq⟩ := List.length_eq_one.mp hA1
        have heL : e ∈ L := by
          have hmem : e ∈ applyL L k nd := by rw [hAeq]; simp
          subst hAe
          unfold applyL at hmem
          rw [if_pos (by simp [isEmptyN])] at hmem
          exact (List.mem_filter.mp hmem).1
        have hel : isLeafN e = true := (hg e heL).1
        by_cases hse : keySide (nodeKey e) d = 0
        · -- the surviving leaf sits on the right; the left subtree of the
          -- original tree is empty and its right subtree holds two leaves
          have hAfl : ((applyL L k nd).filter fun ln =>
              decide (keySide (nodeKey ln) d ≠ 0)) = [] := by
            rw [hAeq]; simp [hse]
          have hAfr : ((applyL L k nd).filter fun ln =>
              decide (keySide (nodeKey ln) d = 0)) = [e] := by
            rw [hAeq]; simp [hse]
          have hnr : applyL (L.filter fun ln =>
              decide (keySide (nodeKey ln) d = 0)) k nd = [e] := hAr.symm.trans hAfr
          have hlnil : (L.filter fun ln => decide (keySide (nodeKey ln) d ≠ 0)) = [] :=
            hAl.symm.trans hAfl
          have hr2 : 1 < (L.filter fun ln => decide (keySide (nodeKey ln) d = 0)).length := by
            rw [hlnil] at hsum
            simp only [List.length_nil] at hsum
            omega
          obtain ⟨x, y, hxy⟩ := (build_shape (n + 1) (d + 1)
            (L.filter fun ln => decide (keySide (nodeKey ln) d = 0)) (by omega)
            (goodLeaves_filter _ L hg) (distinct_rights d L hdist)).2 hr2
          refine ⟨[] ++ ch1, ?_,
            by simp only [List.nil_append]; rw [hmem1]; exact or_congr Iff.rfl hmemL,
            by simpa using hall1⟩
          simp only [mtPutKeys, hfil, hfir, hrec, mtPutKeys_nil_items,
            if_pos (List.cons_ne_nil (k, nd) [])]
          rw [hnr, mtFromLeafNodes_single]
          rw [if_neg (fun hc => by
            have h1 := hc.2
            rw [hxy] at h1
            exact isLeafN_ne_inner e hel x y h1)]
          rw [hlnil, mtFromLeafNodes_nil, innerCtor_empty_leaf e hel, hAeq,
            mtFromLeafNodes_single]
        · -- the surviving leaf sits on the left; the removed leaf was the
          -- only leaf of the right subtree
          have hAfl : ((applyL L k nd).filter fun ln =>
              decide (keySide (nodeKey ln) d ≠ 0)) = [e] := by
            rw [hAeq]; simp [hse]
          have hAfr : ((applyL L k nd).filter fun ln =>
              decide (keySide (nodeKey ln) d = 0)) = [] := by
            rw [hAeq]; simp [hse]
          have hnr : applyL (L.filter fun ln =>
              decide (keySide (nodeKey ln) d = 0)) k nd = [] := hAr.symm.trans hAfr
          have hlfts : (L.filter fun ln => decide (keySide (nodeKey ln) d ≠ 0)) = [e] :=
            hAl.symm.trans hAfl
          have hrne : (L.filter fun ln => decide (keySide (nodeKey ln) d = 0)) ≠ [] := by
            intro hc
            rw [hlfts, hc] at hsum
            simp only [List.length_singleton, List.length_nil] at hsum
            omega
          have hbr := (build_shape (n + 1) (d + 1)
            (L.filter fun ln => decide (keySide (nodeKey ln) d = 0)) (by omega)
            (goodLeaves_filter _ L hg) (distinct_rights d L hdist)).1 hrne
          refine ⟨[] ++ ch1, ?_,
            by simp only [List.nil_append]; rw [hmem1]; exact or_congr Iff.rfl hmemL,
            by simpa using hall1⟩
          simp only [mtPutKeys, hfil, hfir, hrec, mtPutKeys_nil_items,
            if_pos (List.cons_ne_nil (k, nd) [])]
          rw [hnr, mtFromLeafNodes_nil]
          rw [if_neg (fun hc => by
            have h1 := hc.2
            exact (ne_empty_of_isEmptyN_false _ hbr) h1.symm)]
          rw [hlfts, mtFromLeafNodes_single, innerCtor_leaf_empty e hel, hAeq,
            mtFromLeafNodes_single]
    · -- the batch key routes to the left subtree
      have hfil : ([(k, nd)].filter fun it => decide (keySide it.1 d ≠ 0)) = [(k, nd)] := by
        simp [hq]
      have hfir : ([(k, nd)].filter fun it => decide (keySide it.1 d = 0)) = [] := by
        simp [hq]
      have hdiffl : ∀ ln ∈ (L.filter fun ln => decide (keySide (nodeKey ln) d ≠ 0)),
          nodeKey ln = k ∨ sideDiffFrom (d + 1) (nodeKey ln) k := by
        intro ln hln
        rcases hdiff ln (List.mem_filter.mp hln).1 with he | ⟨j, hj1, hj2, hj3⟩
        · exact Or.inl he
        · right
          rcases Nat.eq_or_lt_of_le hj1 with hje | hjl
          · exfalso
            apply hj3
            rw [← hje]
            rw [side_eq_one_of_ne _ _ (by simpa using (List.mem_filter.mp hln).2),
              side_eq_one_of_ne _ _ hq]
          · exact ⟨j, hjl, hj2, hj3⟩
      obtain ⟨ch1, hrec, hmem1, hall1⟩ := ih (d + 1)
        (L.filter fun ln => decide (keySide (nodeKey ln) d ≠ 0)) k nd (by omega)
        (goodLeaves_filter _ L hg) (distinct_lefts d L hdist) hnd hk hdiffl
      have hAl : ((applyL L k nd).filter fun ln => decide (keySide (nodeKey ln) d ≠ 0)) =
          applyL (L.filter fun ln => decide (keySide (nodeKey ln) d ≠ 0)) k nd :=
        applyL_filter_true L k nd hnd2 (fun b => decide (keySide b d ≠ 0)) (by simp [hq])
      have hAr : ((applyL L k nd).filter fun ln => decide (keySide (nodeKey ln) d = 0)) =
          L.filter fun ln => decide (keySide (nodeKey ln) d = 0) :=
        applyL_filter_false L k nd hnd2 (fun b => decide (keySide b d = 0)) (by simp [hq])
      have hmemL : (k ∈ (L.filter fun ln =>
          decide (keySide (nodeKey ln) d ≠ 0)).map nodeKey) ↔ k ∈ L.map nodeKey :=
        mem_keys_filter_of_key L k (fun b => decide (keySide b d ≠ 0)) (by simp [hq])
      by_cases hA2 : 1 < (applyL L k nd).length
      · have hAinner : mtFromLeafNodes (applyL L k nd) d =
            .inner
              (mtFromLeafNodes (applyL (L.filter fun ln =>
                decide (keySide (nodeKey ln) d ≠ 0)) k nd) (d + 1))
              (mtFromLeafNodes (L.filter fun ln =>
                decide (keySide (nodeKey ln) d = 0)) (d + 1)) := by
          rw [build_unfold_inner (n + 1) d _ hn hgA hdA hA2, hAl, hAr]
        have hplain : mtFromLeafNodes (applyL L k nd) d =
            innerCtor
              (mtFromLeafNodes (applyL (L.filter fun ln =>
                decide (keySide (nodeKey ln) d ≠ 0)) k nd) (d + 1))
              (mtFromLeafNodes (L.filter fun ln =>
                decide (keySide (nodeKey ln) d = 0)) (d + 1)) := by
          rw [mtFromLeafNodes_unfold _ d hA2 hd256, hAl, hAr]
        refine ⟨ch1 ++ [], ?_,
          by simp only [List.append_nil]; rw [hmem1]; exact or_congr Iff.rfl hmemL,
          by simpa using hall1⟩
        simp only [mtPutKeys, hfil, hfir, hrec, mtPutKeys_nil_items,
          if_pos (List.cons_ne_nil (k, nd) [])]
        by_cases hif : mtFromLeafNodes (applyL (L.filter fun ln =>
            decide (keySide (nodeKey ln) d ≠ 0)) k nd) (d + 1) =
            mtFromLeafNodes (L.filter fun ln =>
              decide (keySide (nodeKey ln) d ≠ 0)) (d + 1)
        · rw [if_pos (And.intro hif trivial), hAinner, hif]
        · rw [if_neg (fun hc => hif hc.1), hAinner, ← hplain.symm.trans hAinner]
      · have hAe : nd = Node.empty := by
          rcases hnd with he | ⟨v, he⟩
          · exact he
          · exfalso
            apply hA2
            subst he
            unfold applyL
            rw [if_neg (by simp [isEmptyN])]
            by_cases hmem : k ∈ L.map nodeKey
            · rw [if_pos hmem, List.length_map]
              exact hlen
            · rw [if_neg hmem, List.length_append]
              simp only [List.length_singleton]
              omega
        have hA1 : (applyL L k nd).length = 1 := by
          have hlb := filter_ne_key_len d L k hdist
          subst hAe
          unfold applyL at hA2 ⊢
          rw [if_pos (by simp [isEmptyN])] at hA2 ⊢
          simp only [Nat.not_lt] at hA2
          omega
        obtain ⟨e, hAeq⟩ := List.length_eq_one.mp hA1
        have heL : e ∈ L := by
          have hmem : e ∈ applyL L k nd := by rw [hAeq]; simp
          subst hAe
          unfold applyL at hmem
          rw [if_pos (by simp [isEmptyN])] at hmem
          exact (List.mem_filter.mp hmem).1
        have hel : isLeafN e = true := (hg e heL).1
        by_cases hse : keySide (nodeKey e) d = 0
        · -- the surviving leaf sits on the right; the removed leaf was the
          -- only leaf of the left subtree
          have hAfl : ((applyL L k nd).filter fun ln =>
              decide (keySide (nodeKey ln) d ≠ 0)) = [] := by
            rw [hAeq]; simp [hse]
          have hAfr : ((applyL L k nd).filter fun ln =>
              decide (keySide (nodeKey ln) d = 0)) = [e] := by
            rw [hAeq]; simp [hse]
          have hnl : applyL (L.filter fun ln =>
              decide (keySide (nodeKey ln) d ≠ 0)) k nd = [] := hAl.symm.trans hAfl
          have hrts : (L.filter fun ln => decide (keySide (nodeKey ln) d = 0)) = [e] :=
            hAr.symm.trans hAfr
          have hlne : (L.filter fun ln => decide (keySide (nodeKey ln) d ≠ 0)) ≠ [] := by
            intro hc
            rw [hc, hrts] at hsum
            simp only [List.length_singleton, List.length_nil] at hsum
            omega
          have hbl := (build_shape (n + 1) (d + 1)
            (L.filter fun ln => decide (keySide (nodeKey ln) d ≠ 0)) (by omega)
            (goodLeaves_filter _ L hg) (distinct_lefts d L hdist)).1 hlne
          refine ⟨ch1 ++ [], ?_,
            by simp only [List.append_nil]; rw [hmem1]; exact or_congr Iff.rfl hmemL,
            by simpa using hall1⟩
          simp only [mtPutKeys, hfil, hfir, hrec, mtPutKeys_nil_items,
            if_pos (List.cons_ne_nil (k, nd) [])]
          rw [hnl, mtFromLeafNodes_nil]
          rw [if_neg (fun hc => by
            have h1 := hc.1
            exact (ne_empty_of_isEmptyN_false _ hbl) h1.symm)]
          rw [hrts, mtFromLeafNodes_single, innerCtor_empty_leaf e hel, hAeq,
            mtFromLeafNodes_single]
        · -- the surviving leaf sits on the left; the right subtree of the
          -- original tree is empty and its left subtree holds two leaves
          have hAfl : ((applyL L k nd).filter fun ln =>
              decide (keySide (nodeKey ln) d ≠ 0)) = [e] := by
            rw [hAeq]; simp [hse]
          have hAfr : ((applyL L k nd).filter fun ln =>
              decide (keySide (nodeKey ln) d = 0)) = [] := by
            rw [hAeq]; simp [hse]
          have hnl : applyL (L.filter fun ln =>
              decide (keySide (nodeKey ln) d ≠ 0)) k nd = [e] := hAl.symm.trans hAfl
          have hrts : (L.filter fun ln => decide (keySide (nodeKey ln) d = 0)) = [] :=
            hAr.symm.trans hAfr
          have hl2 : 1 < (L.filter fun ln => decide (keySide (nodeKey ln) d ≠ 0)).length := by
            rw [hrts] at hsum
            simp only [List.length_nil] at hsum
            omega
          obtain ⟨x, y, hxy⟩ := (build_shape (n + 1) (d + 1)
            (L.filter fun ln => decide (keySide (nodeKey ln) d ≠ 0)) (by omega)
            (goodLeaves_filter _ L hg) (distinct_lefts d L hdist)).2 hl2
          refine ⟨ch1 ++ [], ?_,
            by simp only [List.append_nil]; rw [hmem1]; exact or_congr Iff.rfl hmemL,
            by simpa using hall1⟩
          simp only [mtPutKeys, hfil, hfir, hrec, mtPutKeys_nil_items,
            if_pos (List.cons_ne_nil (k, nd) [])]
          rw [hnl, mtFromLeafNodes_single]
          rw [if_neg (fun hc => by
            have h1 := hc.1
            rw [hxy] at h1
            exact isLeafN_ne_inner e hel x y h1)]
          rw [hrts, mtFromLeafNodes_nil, innerCtor_leaf_empty e hel, hAeq,
            mtFromLeafNodes_single]

theorem mem_leavesOf_isLeaf : ∀ t : Node, ∀ ln ∈ leavesOf t, isLeafN ln = true := by
  intro t
  induction t with
  | empty => simp [leavesOf]
  | prunedInner h => simp [leavesOf]
  | fullLeaf k v => intro ln hln; rw [List.mem_singleton.mp hln]; rfl
  | prunedLeaf k h => intro ln hln; rw [List.mem_singleton.mp hln]; rfl
  | inner l r ihl ihr =>
    intro ln hln
    rcases List.mem_append.mp hln with h | h
    · exact ihl ln h
    · exact ihr ln h

theorem leavesValid_mem (t : Node) (hv : leavesValid t = true) :
    ∀ ln ∈ leavesOf t, validKey (nodeKey ln) := by
  intro ln hln
  have := (List.all_eq_true.mp hv) ln hln
  simpa using this

theorem goodLeaves_of_tree (t : Node) (hv : leavesValid t = true) :
    goodLeaves (leavesOf t) :=
  fun ln hln => ⟨mem_leavesOf_isLeaf t ln hln, leavesValid_mem t hv ln hln⟩

theorem leavesValid_inner (l r : Node) (hv : leavesValid (.inner l r) = true) :
    leavesValid l = true ∧ leavesValid r = true := by
  rw [leavesValid, leavesOf, List.all_append, Bool.and_eq_true] at hv
  exact hv

theorem pathsOK_inner (l r : Node) (d : Nat) (hp : pathsOK (.inner l r) d = true) :
    (∀ ln ∈ leavesOf l, keySide (nodeKey ln) d ≠ 0) ∧
    (∀ ln ∈ leavesOf r, keySide (nodeKey ln) d = 0) ∧
    pathsOK l (d + 1) = true ∧ pathsOK r (d + 1) = true := by
  rw [pathsOK, Bool.and_eq_true, Bool.and_eq_true, Bool.and_eq_true] at hp
  obtain ⟨⟨⟨h1, h2⟩, h3⟩, h4⟩ := hp
  refine ⟨?_, ?_, h3, h4⟩
  · intro ln hln
    simpa using (List.all_eq_true.mp h1) ln hln
  · intro ln hln
    simpa using (List.all_eq_true.mp h2) ln hln

/-- Routing and key validity make the leaves of a tree pairwise
distinguishable below the tree's depth. -/
theorem distinct_of_pathsOK : ∀ t d, pathsOK t d = true → leavesValid t = true →
    distinctFromN d (leavesOf t) := by
  intro t
  induction t with
  | empty => intro d _ _; simp [leavesOf, distinctFromN]
  | prunedInner h => intro d _ _; simp [leavesOf, distinctFromN]
  | fullLeaf k v => intro d _ _; simp [leavesOf, distinctFromN]
  | prunedLeaf k h => intro d _ _; simp [leavesOf, distinctFromN]
  | inner l r ihl ihr =>
    intro d hp hv
    obtain ⟨h1, h2, h3, h4⟩ := pathsOK_inner l r d hp
    obtain ⟨hvl, hvr⟩ := leavesValid_inner l r hv
    rw [distinctFromN, leavesOf, List.pairwise_append]
    refine ⟨(ihl (d + 1) h3 hvl).imp ?_, (ihr (d + 1) h4 hvr).imp ?_, ?_⟩
    · exact fun hab => sideDiffFrom_mono d (d + 1) (Nat.le_succ d) _ _ hab
    · exact fun hab => sideDiffFrom_mono d (d + 1) (Nat.le_succ d) _ _ hab
    · intro x hx y hy
      exact ⟨d, Nat.le_refl d,
        lt_256_of_keySide_ne _ (leavesValid_mem l hvl x hx).1 d (h1 x hx),
        by rw [h2 y hy]; exact h1 x hx⟩

theorem leaves_nil_imp_empty : ∀ t, unprunedN t = true → compactOK t = true →
    leavesOf t = [] → t = .empty := by
  intro t
  induction t with
  | empty => intro _ _ _; rfl
  | prunedInner h => intro h1 _ _; simp [unprunedN] at h1
  | fullLeaf k v => intro _ _ h3; simp [leavesOf] at h3
  | prunedLeaf k h => intro h1 _ _; simp [unprunedN] at h1
  | inner l r ihl ihr =>
    intro h1 h2 h3
    rw [unprunedN, Bool.and_eq_true] at h1
    rw [leavesOf, List.append_eq_nil] at h3
    have hcl : compactOK l = true ∧ compactOK r = true := by
      rw [compactOK, Bool.and_eq_true, Bool.and_eq_true, Bool.and_eq_true] at h2
      exact ⟨h2.1.2, h2.2⟩
    have hle := ihl h1.1 hcl.1 h3.1
    have hre := ihr h1.2 hcl.2 h3.2
    subst hle; subst hre
    rw [compactOK] at h2
    simp [isEmptyN] at h2

theorem two_leaves : ∀ t, unprunedN t = true → compactOK t = true →
    (∀ x y, t = .inner x y → 1 < (leavesOf t).length) := by
  intro t
  induction t with
  | empty => intro _ _ x y h; exact absurd h (by simp)
  | prunedInner h => intro _ _ x y he; exact absurd he (by simp)
  | fullLeaf k v => intro _ _ x y h; exact absurd h (by simp)
  | prunedLeaf k h => intro _ _ x y he; exact absurd he (by simp)
  | inner l r ihl ihr =>
    intro h1 h2 x y _
    rw [unprunedN, Bool.and_eq_true] at h1
    have h2e := h2
    rw [compactOK, Bool.and_eq_true, Bool.and_eq_true, Bool.and_eq_true] at h2e
    obtain ⟨⟨⟨hc1, hc2⟩, hcl⟩, hcr⟩ := h2e
    rw [leavesOf, List.length_append]
    by_cases hle : leavesOf l = []
    · have hlem := leaves_nil_imp_empty l h1.1 hcl hle
      subst hlem
      cases r with
      | empty => simp [isEmptyN] at hc1
      | fullLeaf k v => simp [isEmptyN, isLeafN] at hc1
      | prunedLeaf k h => simp [unprunedN] at h1
      | prunedInner h => simp [unprunedN] at h1
      | inner a b =>
        have := ihr h1.2 hcr a b rfl
        rw [hle]
        simpa using this
    · by_cases hre : leavesOf r = []
      · have hrem := leaves_nil_imp_empty r h1.2 hcr hre
        subst hrem
        cases l with
        | empty => simp [isEmptyN] at hc2
        | fullLeaf k v => simp [isEmptyN, isLeafN] at hc2
        | prunedLeaf k h => simp [unprunedN] at h1
        | prunedInner h => simp [unprunedN] at h1
        | inner a b =>
          have := ihl h1.1 hcl a b rfl
          rw [hre]
          simpa using this
      · have hl1 : 1 ≤ (leavesOf l).length := by
          cases h : (leavesOf l).length with
          | zero => exact absurd (List.length_eq_zero.mp h) hle
          | succ m => omega
        have hr1 : 1 ≤ (leavesOf r).length := by
          cases h : (leavesOf r).length with
          | zero => exact absurd (List.length_eq_zero.mp h) hre
          | succ m => omega
        omega

/-- Canonical representation: an unpruned, compact, correctly-routed tree
is exactly `_mt_from_leaf_nodes` of its leaves. -/
theorem repr_build : ∀ t d, unprunedN t = true → compactOK t = true →
    pathsOK t d = true → leavesValid t = true →
    mtFromLeafNodes (leavesOf t) d = t := by
  intro t
  induction t with
  | empty => intro d _ _ _ _; exact mtFromLeafNodes_nil d
  | prunedInner h => intro d h1 _ _ _; simp [unprunedN] at h1
  | fullLeaf k v => intro d _ _ _ _; exact mtFromLeafNodes_single _ d
  | prunedLeaf k h => intro d h1 _ _ _; simp [unprunedN] at h1
  | inner l r ihl ihr =>
    intro d h1 h2 hp hv
    have h1e := h1
    rw [unprunedN, Bool.and_eq_true] at h1e
    have h2e := h2
    rw [compactOK, Bool.and_eq_true, Bool.and_eq_true, Bool.and_eq_true] at h2e
    obtain ⟨⟨⟨hc1, hc2⟩, hcl⟩, hcr⟩ := h2e
    obtain ⟨hs1, hs2, hp3, hp4⟩ := pathsOK_inner l r d hp
    obtain ⟨hvl, hvr⟩ := leavesValid_inner l r hv
    have hlen := two_leaves (.inner l r) h1 h2 l r rfl
    rw [leavesOf] at hlen ⊢
    have hgood : goodLeaves (leavesOf l ++ leavesOf r) := by
      intro ln hln
      rcases List.mem_append.mp hln with h | h
      · exact ⟨mem_leavesOf_isLeaf l ln h, leavesValid_mem l hvl ln h⟩
      · exact ⟨mem_leavesOf_isLeaf r ln h, leavesValid_mem r hvr ln h⟩
    have hdist : distinctFromN d (leavesOf l ++ leavesOf r) := by
      have := distinct_of_pathsOK (.inner l r) d hp hv
      rw [leavesOf] at this
      exact this
    rw [build_unfold_inner 256 d _ (by omega) hgood hdist hlen]
    have hfl : ((leavesOf l ++ leavesOf r).filter fun ln =>
        decide (keySide (nodeKey ln) d ≠ 0)) = leavesOf l := by
      rw [List.filter_append]
      rw [List.filter_eq_self.mpr (fun a ha => by simpa using hs1 a ha),
        List.filter_eq_nil_iff.mpr (fun a ha => by simp [hs2 a ha]),
        List.append_nil]
    have hfr : ((leavesOf l ++ leavesOf r).filter fun ln =>
        decide (keySide (nodeKey ln) d = 0)) = leavesOf r := by
      rw [List.filter_append]
      rw [List.filter_eq_nil_iff.mpr (fun a ha => by simp [hs1 a ha]),
        List.filter_eq_self.mpr (fun a ha => by simpa using hs2 a ha),
        List.nil_append]
    rw [hfl, hfr, ihl (d + 1) h1e.1 hcl hp3 hvl, ihr (d + 1) h1e.2 hcr hp4 hvr]

theorem hdiff_of_good (L : List Node) (k : Bytes) (hg : goodLeaves L) (hk : validKey k) :
    ∀ ln ∈ L, nodeKey ln = k ∨ sideDiffFrom 0 (nodeKey ln) k := by
  intro ln hln
  by_cases he : nodeKey ln = k
  · exact Or.inl he
  · exact Or.inr (validKey_sideDiff _ _ (hg ln hln).2 hk he)

/-- `put` on a canonical tree replaces or appends the leaf for its key. -/
theorem put_build (L : List Node) (k v : Bytes) (hg : goodLeaves L)
    (hd : distinctFromN 0 L) (hk : validKey k) :
    put (mtFromLeafNodes L 0) k v =
      .ok (mtFromLeafNodes (applyL L k (.fullLeaf k v)) 0) := by
  obtain ⟨ch, heq, hmem, _⟩ := putKeys_build 256 0 L k (.fullLeaf k v) (by omega) hg hd
    (Or.inr ⟨v, rfl⟩) hk (hdiff_of_good L k hg hk)
  unfold put
  rw [if_neg (by simp [hk.1])]
  simp only [heq]
  rw [if_pos (hmem.mpr (Or.inl (by simp)))]

/-- `remove` on a canonical tree erases the leaf carrying its key. -/
theorem remove_build_mem (L : List Node) (k : Bytes) (hg : goodLeaves L)
    (hd : distinctFromN 0 L) (hk : validKey k) (hin : k ∈ L.map nodeKey) :
    remove (mtFromLeafNodes L 0) k =
      .ok (mtFromLeafNodes (applyL L k .empty) 0) := by
  obtain ⟨ch, heq, hmem, _⟩ := putKeys_build 256 0 L k .empty (by omega) hg hd
    (Or.inl rfl) hk (hdiff_of_good L k hg hk)
  unfold remove
  rw [if_neg (by simp [hk.1])]
  simp only [heq]
  rw [if_pos (hmem.mpr (Or.inr hin))]

/-- `remove` of an absent key raises `KeyError`. -/
theorem remove_build_not_mem (L : List Node) (k : Bytes) (hg : goodLeaves L)
    (hd : distinctFromN 0 L) (hk : validKey k) (hout : k ∉ L.map nodeKey) :
    remove (mtFromLeafNodes L 0) k = .error (.keyError k) := by
  obtain ⟨ch, heq, hmem, _⟩ := putKeys_build 256 0 L k .empty (by omega) hg hd
    (Or.inl rfl) hk (hdiff_of_good L k hg hk)
  unfold remove
  rw [if_neg (by simp [hk.1])]
  simp only [heq]
  rw [if_neg (fun hc => by
    rcases hmem.mp hc with h | h
    · exact h rfl
    · exact hout h)]

/-- Looking up a key in a canonical tree dispatches on the unique leaf
carrying it. -/
theorem getItem_build (L : List Node) (q : Bytes) (hg : goodLeaves L)
    (hd : distinctFromN 0 L) (hql : q.length = KEYSIZE) :
    getItem (mtFromLeafNodes L 0) q =
      match L.filter fun ln => decide (nodeKey ln = q) with
      | [] => .error (.keyError q)
      | Node.fullLeaf _ v :: _ => .ok v
      | Node.prunedLeaf _ _ :: _ => .error (.nameError "PrunedError")
      | _ :: _ => .error .assertionError := by
  unfold getItem
  rw [if_neg (by simp [hql])]
  rw [getKeys_build 256 0 L q (by omega) hg hd]
  cases hfe : L.filter fun ln => decide (nodeKey ln = q) with
  | nil => simp [lookupRes]
  | cons ln rest =>
    cases ln <;> simp [lookupRes]

theorem containsKey_build (L : List Node) (q : Bytes) (hg : goodLeaves L)
    (hd : distinctFromN 0 L) (hql : q.length = KEYSIZE) :
    containsKey (mtFromLeafNodes L 0) q =
      .ok (!(L.filter fun ln => decide (nodeKey ln = q)).isEmpty) := by
  unfold containsKey
  rw [if_neg (by simp [hql])]
  rw [getKeys_build 256 0 L q (by omega) hg hd]
  cases hfe : L.filter fun ln => decide (nodeKey ln = q) with
  | nil => simp [lookupRes]
  | cons ln rest => simp [lookupRes]

/-- Folding `put` over fresh distinct keys appends their leaves. -/
theorem foldPuts_from : ∀ (S : List (Bytes × Bytes)) (L : List Node),
    goodLeaves L → distinctFromN 0 L →
    (∀ kv ∈ S, validKey kv.1) →
    (∀ kv ∈ S, kv.1 ∉ L.map nodeKey) →
    (S.map Prod.fst).Pairwise (· ≠ ·) →
    S.foldlM (fun t kv => put t kv.1 kv.2) (mtFromLeafNodes L 0) =
      .ok (mtFromLeafNodes (L ++ S.map fun kv => Node.fullLeaf kv.1 kv.2) 0) := by
  intro S
  induction S with
  | nil =>
    intro L hg hd _ _ _
    rw [List.map_nil, List.append_nil]
    rfl
  | cons kv rest ih =>
    intro L hg hd hval hdisj hpair
    obtain ⟨k, v⟩ := kv
    have hkv : validKey k := hval (k, v) (by simp)
    have hknotin : k ∉ L.map nodeKey := hdisj (k, v) (by simp)
    rw [List.foldlM_cons]
    have hA : applyL L k (.fullLeaf k v) = L ++ [.fullLeaf k v] := by
      unfold applyL
      rw [if_neg (by simp [isEmptyN]), if_neg (by simpa using hknotin)]
    rw [put_build L k v hg hd hkv, hA]
    have hg2 : goodLeaves (L ++ [Node.fullLeaf k v]) := by
      intro ln hln
      rcases List.mem_append.mp hln with h | h
      · exact hg ln h
      · rw [List.mem_singleton.mp h]
        exact ⟨rfl, hkv⟩
    have hd2 : distinctFromN 0 (L ++ [Node.fullLeaf k v]) := by
      rw [distinctFromN, List.pairwise_append]
      refine ⟨hd, List.pairwise_singleton _ _, ?_⟩
      intro x hx y hy
      rw [List.mem_singleton.mp hy]
      apply validKey_sideDiff _ _ (hg x hx).2 hkv
      intro hc
      exact hknotin (List.mem_map.mpr ⟨x, hx, hc⟩)
    have hpair2 : (rest.map Prod.fst).Pairwise (· ≠ ·) := by
      rw [List.map_cons, List.pairwise_cons] at hpair
      exact hpair.2
    have hdisj2 : ∀ kv ∈ rest, kv.1 ∉ (L ++ [Node.fullLeaf k v]).map nodeKey := by
      intro kv2 hkv2 hc
      rw [List.map_append] at hc
      rcases List.mem_append.mp hc with h | h
      · exact hdisj kv2 (by simp [hkv2]) h
      · rw [List.map_cons, List.pairwise_cons] at hpair
        have := hpair.1 kv2.1 (List.mem_map.mpr ⟨kv2, hkv2, rfl⟩)
        simp [nodeKey] at h
        exact this h.symm
    have := ih (L ++ [Node.fullLeaf k v]) hg2 hd2
      (fun kv2 h2 => hval kv2 (by simp [h2])) hdisj2 hpair2
    calc (Except.ok (mtFromLeafNodes (L ++ [Node.fullLeaf k v]) 0) >>=
        fun t => rest.foldlM (fun t kv => put t kv.1 kv.2) t) =
        rest.foldlM (fun t kv => put t kv.1 kv.2)
          (mtFromLeafNodes (L ++ [Node.fullLeaf k v]) 0) := rfl
      _ = .ok (mtFromLeafNodes ((L ++ [Node.fullLeaf k v]) ++
            rest.map fun kv => Node.fullLeaf kv.1 kv.2) 0) := this
      _ = .ok (mtFromLeafNodes (L ++
            ((k, v) :: rest).map fun kv => Node.fullLeaf kv.1 kv.2) 0) := by
            rw [List.append_assoc, List.singleton_append, List.map_cons]

/-- Every tree reachable through the public API is canonical: it is
`_mt_from_leaf_nodes` of a list of valid, pairwise-distinguishable leaves. -/
theorem reach_canon : ∀ t, Reachable t → ∃ L, goodLeaves L ∧ distinctFromN 0 L ∧
    t = mtFromLeafNodes L 0 := by
  intro t ht
  induction ht with
  | base =>
    exact ⟨[], fun ln h => absurd h (List.not_mem_nil ln), List.Pairwise.nil,
      (mtFromLeafNodes_nil 0).symm⟩
  | bulk items hval hne =>
    refine ⟨items.map fun kv => Node.fullLeaf kv.1 kv.2, ?_, ?_, ?_⟩
    · intro ln hln
      obtain ⟨kv, hkv, he⟩ := List.mem_map.mp hln
      rw [← he]
      exact ⟨rfl, hval kv hkv⟩
    · rw [distinctFromN, List.pairwise_map]
      have hne2 : items.Pairwise (fun a b => a.1 ≠ b.1) := by
        rw [List.pairwise_map] at hne
        exact hne
      apply hne2.imp_of_mem
      intro a b ha hb hab
      exact validKey_sideDiff _ _ (hval a ha) (hval b hb) hab
    · rfl
  | putStep t k v t2 ht hk hput ih =>
    obtain ⟨L, hg, hd, heq⟩ := ih
    subst heq
    rw [put_build L k v hg hd hk] at hput
    refine ⟨applyL L k (.fullLeaf k v), applyL_good L k _ hg (Or.inr ⟨rfl, hk, rfl⟩),
      applyL_distinct 0 L k _ hd (Or.inr rfl) (hdiff_of_good L k hg hk), ?_⟩
    exact (Except.ok.inj hput).symm
  | removeStep t k t2 ht hk hrem ih =>
    obtain ⟨L, hg, hd, heq⟩ := ih
    subst heq
    by_cases hmem : k ∈ L.map nodeKey
    · rw [remove_build_mem L k hg hd hk hmem] at hrem
      refine ⟨applyL L k .empty, applyL_good L k _ hg (Or.inl rfl),
        applyL_distinct 0 L k _ hd (Or.inl rfl) (hdiff_of_good L k hg hk), ?_⟩
      exact (Except.ok.inj hrem).symm
    · rw [remove_build_not_mem L k hg hd hk hmem] at hrem
      exact absurd hrem (by simp)

/-- Lexicographic dominance from a prefix of equal bytes and one larger
byte. -/
theorem bytesGt_of_byte : ∀ (i : Nat) (a b : Bytes), i < a.length → i < b.length →
    (∀ m, m < i → a.getD m 0 = b.getD m 0) → b.getD i 0 < a.getD i 0 →
    bytesGt a b = true := by
  intro i
  induction i with
  | zero =>
    intro a b ha hb _ hlt
    cases a with
    | nil => simp at ha
    | cons x xs =>
      cases b with
      | nil => simp at hb
      | cons y ys =>
        rw [List.getD_cons_zero, List.getD_cons_zero] at hlt
        rw [bytesGt, if_neg (by omega)]
        simpa using hlt
  | succ i ihi =>
    intro a b ha hb hpre hlt
    cases a with
    | nil => simp at ha
    | cons x xs =>
      cases b with
      | nil => simp at hb
      | cons y ys =>
        have hx : x = y := by
          have := hpre 0 (Nat.succ_pos i)
          rwa [List.getD_cons_zero, List.getD_cons_zero] at this
        subst hx
        rw [bytesGt, if_pos rfl]
        rw [List.getD_cons_succ, List.getD_cons_succ] at hlt
        apply ihi xs ys (by simpa using ha) (by simpa using hb) ?_ hlt
        intro m hm
        have := hpre (m + 1) (by omega)
        rwa [List.getD_cons_succ, List.getD_cons_succ] at this

/-- A shared prefix of side bits followed by side 1 against side 0 gives
strict lexicographic dominance of the keys (Python `bytes.__gt__`). -/
theorem bytesGt_of_sideSplit (a b : Bytes) (ha : validKey a) (hb : validKey b)
    (d : Nat) (hagree : ∀ j, j < d → keySide a j = keySide b j)
    (h1 : keySide a d ≠ 0) (h0 : keySide b d = 0) : bytesGt a b = true := by
  have hd256 : d < 256 := lt_256_of_keySide_ne a ha.1 d h1
  have hil : d / 8 < a.length := by
    rw [ha.1]
    show d / 8 < 32
    omega
  have hilb : d / 8 < b.length := by
    rw [hb.1]
    show d / 8 < 32
    omega
  have hbound : ∀ (c : Bytes), validKey c → ∀ m, m < c.length → c.getD m 0 < 256 := by
    intro c hc m hm
    rw [List.getD_eq_getElem _ _ hm]
    exact hc.2 _ (List.getElem_mem hm)
  have hsides : ∀ (c : Bytes) m u, u < 8 →
      keySide c (8 * m + (7 - u)) = c.getD m 0 / 2 ^ u % 2 := by
    intro c m u hu
    rw [keySide_eq_mod]
    have hdiv : (8 * m + (7 - u)) / 8 = m := by omega
    have hmod : 7 - (8 * m + (7 - u)) % 8 = u := by omega
    rw [hdiv, hmod]
  apply bytesGt_of_byte (d / 8) a b hil hilb
  · intro m hm
    apply byte_eq_of_sides _ _ (hbound a ha m (by omega)) (hbound b hb m (by omega))
    intro u hu
    rw [← hsides a m u hu, ← hsides b m u hu]
    exact hagree _ (by omega)
  · apply Nat.lt_of_testBit (7 - d % 8)
    · rw [Nat.testBit_to_div_mod]
      rw [show List.getD b (d / 8) 0 / 2 ^ (7 - d % 8) % 2 = 0 from by
        rw [← keySide_eq_mod]; exact h0]
      rfl
    · rw [Nat.testBit_to_div_mod]
      rw [show List.getD a (d / 8) 0 / 2 ^ (7 - d % 8) % 2 = 1 from by
        rw [← keySide_eq_mod]; exact side_eq_one_of_ne a d h1]
      rfl
    · intro u hu
      by_cases hu8 : u < 8
      · have hju : 8 * (d / 8) + (7 - u) < d := by omega
        rw [Nat.testBit_to_div_mod, Nat.testBit_to_div_mod,
          ← hsides a (d / 8) u hu8, ← hsides b (d / 8) u hu8, hagree _ hju]
      · rw [Nat.testBit_lt_two_pow, Nat.testBit_lt_two_pow]
        · calc a.getD (d / 8) 0 < 256 := hbound a ha _ hil
            _ = 2 ^ 8 := by norm_num
            _ ≤ 2 ^ u := Nat.pow_le_pow_right (by norm_num) (by omega)
        · calc b.getD (d / 8) 0 < 256 := hbound b hb _ hilb
            _ = 2 ^ 8 := by norm_num
            _ ≤ 2 ^ u := Nat.pow_le_pow_right (by norm_num) (by omega)

theorem agree_lefts (d : Nat) (L : List Node) (hag : agreeBelowN d L) :
    agreeBelowN (d + 1) (L.filter fun ln => decide (keySide (nodeKey ln) d ≠ 0)) := by
  intro x hx y hy j hj
  have hxL := (List.mem_filter.mp hx).1
  have hyL := (List.mem_filter.mp hy).1
  rcases Nat.lt_succ_iff_lt_or_eq.mp hj with h | h
  · exact hag x hxL y hyL j h
  · subst h
    rw [side_eq_one_of_ne _ _ (by simpa using (List.mem_filter.mp hx).2),
      side_eq_one_of_ne _ _ (by simpa using (List.mem_filter.mp hy).2)]

theorem agree_rights (d : Nat) (L : List Node) (hag : agreeBelowN d L) :
    agreeBelowN (d + 1) (L.filter fun ln => decide (keySide (nodeKey ln) d = 0)) := by
  intro x hx y hy j hj
  have hxL := (List.mem_filter.mp hx).1
  have hyL := (List.mem_filter.mp hy).1
  rcases Nat.lt_succ_iff_lt_or_eq.mp hj with h | h
  · exact hag x hxL y hyL j h
  · rw [h]
    rw [(by simpa using (List.mem_filter.mp hx).2 : keySide (nodeKey x) d = 0),
      (by simpa using (List.mem_filter.mp hy).2 : keySide (nodeKey y) d = 0)]

theorem build_leaf_single (n d : Nat) (M : List Node) (hn : 256 - d ≤ n)
    (hg : goodLeaves M) (hd : distinctFromN d M)
    (hleaf : isLeafN (mtFromLeafNodes M d) = true) : ∃ a, M = [a] := by
  cases M with
  | nil => rw [mtFromLeafNodes_nil] at hleaf; simp [isLeafN] at hleaf
  | cons a t =>
    cases t with
    | nil => exact ⟨a, rfl⟩
    | cons b r =>
      obtain ⟨x, y, hxy⟩ := (build_shape n d _ hn hg hd).2 (by simp)
      rw [hxy] at hleaf
      simp [isLeafN] at hleaf

/-- `_mt_from_leaf_nodes` establishes the leaf-ordering property asserted
by the `Inner` constructor: a left leaf child's key is lexicographically
greater than its right sibling's. -/
theorem leafOrder_build : ∀ n d L, 256 - d ≤ n → goodLeaves L → distinctFromN d L →
    agreeBelowN d L → leafOrder (mtFromLeafNodes L d) = true := by
  intro n
  induction n with
  | zero =>
    intro d L hn hg hdist hag
    cases L with
    | nil => rw [mtFromLeafNodes_nil]; rfl
    | cons a t =>
      cases t with
      | nil =>
        rw [mtFromLeafNodes_single]
        have hleaf := (hg a (by simp)).1
        cases a <;> first | rfl | simp [isLeafN] at hleaf
      | cons b r =>
        have := distinct_lt_256 d _ hdist (by simp)
        omega
  | succ n ih =>
    intro d L hn hg hdist hag
    by_cases hlen : 1 < L.length
    swap
    · cases L with
      | nil => rw [mtFromLeafNodes_nil]; rfl
      | cons a t =>
        cases t with
        | nil =>
          rw [mtFromLeafNodes_single]
          have hleaf := (hg a (by simp)).1
          cases a <;> first | rfl | simp [isLeafN] at hleaf
        | cons b r => simp at hlen
    · rw [build_unfold_inner (n + 1) d L hn hg hdist hlen]
      have hgl := goodLeaves_filter
        (fun ln => decide (keySide (nodeKey ln) d ≠ 0)) L hg
      have hgr := goodLeaves_filter
        (fun ln => decide (keySide (nodeKey ln) d = 0)) L hg
      have hdl := distinct_lefts d L hdist
      have hdr := distinct_rights d L hdist
      have ihl := ih (d + 1) _ (by omega) hgl hdl (agree_lefts d L hag)
      have ihr := ih (d + 1) _ (by omega) hgr hdr (agree_rights d L hag)
      rw [leafOrder, Bool.and_eq_true, Bool.and_eq_true]
      refine ⟨⟨?_, ihl⟩, ihr⟩
      by_cases hbb : (isLeafN (mtFromLeafNodes (L.filter fun ln =>
          decide (keySide (nodeKey ln) d ≠ 0)) (d + 1)) &&
          isLeafN (mtFromLeafNodes (L.filter fun ln =>
            decide (keySide (nodeKey ln) d = 0)) (d + 1))) = true
      swap
      · rw [if_neg hbb]
      · rw [if_pos hbb]
        rw [Bool.and_eq_true] at hbb
        obtain ⟨la, hla⟩ := build_leaf_single n (d + 1) _ (by omega) hgl hdl hbb.1
        obtain ⟨lb, hlb⟩ := build_leaf_single n (d + 1) _ (by omega) hgr hdr hbb.2
        have hmema : la ∈ L.filter fun ln => decide (keySide (nodeKey ln) d ≠ 0) := by
          rw [hla]; simp
        have hmemb : lb ∈ L.filter fun ln => decide (keySide (nodeKey ln) d = 0) := by
          rw [hlb]; simp
        rw [hla, hlb, mtFromLeafNodes_single, mtFromLeafNodes_single]
        apply bytesGt_of_sideSplit (nodeKey la) (nodeKey lb)
          (hg la (List.mem_filter.mp hmema).1).2 (hg lb (List.mem_filter.mp hmemb).1).2 d
        · intro j hj
          exact hag la (List.mem_filter.mp hmema).1 lb (List.mem_filter.mp hmemb).1 j hj
        · simpa using (List.mem_filter.mp hmema).2
        · simpa using (List.mem_filter.mp hmemb).2

theorem getKeys_inner_right (l tn : Node) (k : Bytes) (d : Nat)
    (res : List (Bytes × Node)) (hq : keySide k d = 0)
    (hget : mtGetKeys tn [k] (d + 1) = .ok res) :
    mtGetKeys (.inner l tn) [k] d = .ok res := by
  have hfl : ([k].filter fun x => decide (keySide x d ≠ 0)) = [] := by simp [hq]
  have hfr : ([k].filter fun x => decide (keySide x d = 0)) = [k] := by simp [hq]
  simp only [mtGetKeys, hfl, hfr, if_pos (List.cons_ne_nil k []), mtGetKeys_nil_keys, hget]
  simp

theorem getKeys_inner_left (tn r : Node) (k : Bytes) (d : Nat)
    (res : List (Bytes × Node)) (hq : keySide k d ≠ 0)
    (hget : mtGetKeys tn [k] (d + 1) = .ok res) :
    mtGetKeys (.inner tn r) [k] d = .ok res := by
  have hfl : ([k].filter fun x => decide (keySide x d ≠ 0)) = [k] := by simp [hq]
  have hfr : ([k].filter fun x => decide (keySide x d = 0)) = [] := by simp [hq]
  simp only [mtGetKeys, hfl, hfr, if_pos (List.cons_ne_nil k []), mtGetKeys_nil_keys, hget]
  simp

theorem getKeys_innerCtor_right (l tn : Node) (k : Bytes) (nd : Node) (d : Nat)
    (hq : keySide k d = 0) (hget : mtGetKeys tn [k] (d + 1) = .ok [(k, nd)]) :
    mtGetKeys (innerCtor l tn) [k] d = .ok [(k, nd)] := by
  cases tn with
  | empty => simp [mtGetKeys] at hget
  | prunedInner h => simp [mtGetKeys] at hget
  | inner a b =>
    have hcc : innerCtor l (.inner a b) = .inner l (.inner a b) := by
      cases l <;> simp [innerCtor, isEmptyN, isLeafN]
    rw [hcc]
    exact getKeys_inner_right l _ k d _ hq hget
  | fullLeaf k2 v2 =>
    by_cases hl : isEmptyN l = true
    · have hle : l = .empty := by cases l <;> simp_all [isEmptyN]
      rw [hle, innerCtor_empty_leaf _ (by rfl)]
      exact hget
    · have hcc : innerCtor l (.fullLeaf k2 v2) = .inner l (.fullLeaf k2 v2) := by
        cases l <;> simp_all [innerCtor, isEmptyN, isLeafN]
      rw [hcc]
      exact getKeys_inner_right l _ k d _ hq hget
  | prunedLeaf k2 h2 =>
    by_cases hl : isEmptyN l = true
    · have hle : l = .empty := by cases l <;> simp_all [isEmptyN]
      rw [hle, innerCtor_empty_leaf _ (by rfl)]
      exact hget
    · have hcc : innerCtor l (.prunedLeaf k2 h2) = .inner l (.prunedLeaf k2 h2) := by
        cases l <;> simp_all [innerCtor, isEmptyN, isLeafN]
      rw [hcc]
      exact getKeys_inner_right l _ k d _ hq hget

theorem getKeys_innerCtor_left (tn r : Node) (k : Bytes) (nd : Node) (d : Nat)
    (hq : keySide k d ≠ 0) (hget : mtGetKeys tn [k] (d + 1) = .ok [(k, nd)]) :
    mtGetKeys (innerCtor tn r) [k] d = .ok [(k, nd)] := by
  cases tn with
  | empty => simp [mtGetKeys] at hget
  | prunedInner h => simp [mtGetKeys] at hget
  | inner a b =>
    have hcc : innerCtor (.inner a b) r = .inner (.inner a b) r := by
      cases r <;> simp [innerCtor, isEmptyN, isLeafN]
    rw [hcc]
    exact getKeys_inner_left _ r k d _ hq hget
  | fullLeaf k2 v2 =>
    by_cases hr : isEmptyN r = true
    · have hre : r = .empty := by cases r <;> simp_all [isEmptyN]
      rw [hre, innerCtor_leaf_empty _ (by rfl)]
      exact hget
    · have hcc : innerCtor (.fullLeaf k2 v2) r = .inner (.fullLeaf k2 v2) r := by
        cases r <;> simp_all [innerCtor, isEmptyN, isLeafN]
      rw [hcc]
      exact getKeys_inner_left _ r k d _ hq hget
  | prunedLeaf k2 h2 =>
    by_cases hr : isEmptyN r = true
    · have hre : r = .empty := by cases r <;> simp_all [isEmptyN]
      rw [hre, innerCtor_leaf_empty _ (by rfl)]
      exact hget
    · have hcc : innerCtor (.prunedLeaf k2 h2) r = .inner (.prunedLeaf k2 h2) r := by
        cases r <;> simp_all [innerCtor, isEmptyN, isLeafN]
      rw [hcc]
      exact getKeys_inner_left _ r k d _ hq hget

/-- A single-key `put` batch on any correctly routed tree whose key path
avoids `PrunedInner` nodes reports the key changed and leaves it
retrievable at its new leaf. -/
theorem putKeys_get (t : Node) : ∀ d k v, validKey k → pathsOK t d = true →
    leavesValid t = true → noPrunedInnerPath t k d = true →
    (∀ ln ∈ leavesOf t, ∀ j, j < d → keySide (nodeKey ln) j = keySide k j) →
    ∃ tNew ch, mtPutKeys t [(k, .fullLeaf k v)] d = .ok (tNew, ch) ∧ k ∈ ch ∧
      mtGetKeys tNew [k] d = .ok [(k, .fullLeaf k v)] := by
  induction t with
  | empty =>
    intro d k v hk hp hv hnp hag
    refine ⟨.fullLeaf k v, [k], ?_, by simp, by simp [mtGetKeys]⟩
    simp [mtPutKeys, isEmptyN, mtFromLeafNodes_single]
  | prunedInner h =>
    intro d k v hk hp hv hnp hag
    simp [noPrunedInnerPath] at hnp
  | fullLeaf k0 v0 =>
    intro d k v hk hp hv hnp hag
    by_cases hk0 : k0 = k
    · subst hk0
      refine ⟨.fullLeaf k0 v, [k0, k0], ?_, by simp, by simp [mtGetKeys]⟩
      simp [mtPutKeys, leafPutLoop, isEmptyN, mtFromLeafNodes_single]
    · have hk0v : validKey k0 := by
        have := leavesValid_mem (.fullLeaf k0 v0) hv (.fullLeaf k0 v0) (by simp [leavesOf])
        simpa [nodeKey] using this
      have hdist2 : distinctFromN d [Node.fullLeaf k0 v0, Node.fullLeaf k v] := by
        rw [distinctFromN, List.pairwise_cons]
        refine ⟨?_, List.pairwise_singleton _ _⟩
        intro b hb
        rw [List.mem_singleton.mp hb]
        obtain ⟨j, _, hj2, hj3⟩ := validKey_sideDiff k0 k hk0v hk hk0
        refine ⟨j, ?_, hj2, hj3⟩
        by_contra hc
        exact hj3 (hag (.fullLeaf k0 v0) (by simp [leavesOf]) j (by omega))
      have hgood2 : goodLeaves [Node.fullLeaf k0 v0, Node.fullLeaf k v] := by
        intro ln hln
        rcases List.mem_cons.mp hln with h | h
        · rw [h]; exact ⟨rfl, hk0v⟩
        · rw [List.mem_singleton.mp h]; exact ⟨rfl, hk⟩
      refine ⟨mtFromLeafNodes [Node.fullLeaf k0 v0, Node.fullLeaf k v] d, [k], ?_, by simp, ?_⟩
      · simp [mtPutKeys, leafPutLoop, isEmptyN, hk0]
      · rw [getKeys_build 256 d _ k (by omega) hgood2 hdist2]
        simp [nodeKey, hk0]
  | prunedLeaf k0 h0 =>
    intro d k v hk hp hv hnp hag
    by_cases hk0 : k0 = k
    · subst hk0
      refine ⟨.fullLeaf k0 v, [k0, k0], ?_, by simp, by simp [mtGetKeys]⟩
      simp [mtPutKeys, leafPutLoop, isEmptyN, mtFromLeafNodes_single]
    · have hk0v : validKey k0 := by
        have := leavesValid_mem (.prunedLeaf k0 h0) hv (.prunedLeaf k0 h0) (by simp [leavesOf])
        simpa [nodeKey] using this
      have hdist2 : distinctFromN d [Node.prunedLeaf k0 h0, Node.fullLeaf k v] := by
        rw [distinctFromN, List.pairwise_cons]
        refine ⟨?_, List.pairwise_singleton _ _⟩
        intro b hb
        rw [List.mem_singleton.mp hb]
        obtain ⟨j, _, hj2, hj3⟩ := validKey_sideDiff k0 k hk0v hk hk0
        refine ⟨j, ?_, hj2, hj3⟩
        by_contra hc
        exact hj3 (hag (.prunedLeaf k0 h0) (by simp [leavesOf]) j (by omega))
      have hgood2 : goodLeaves [Node.prunedLeaf k0 h0, Node.fullLeaf k v] := by
        intro ln hln
        rcases List.mem_cons.mp hln with h | h
        · rw [h]; exact ⟨rfl, hk0v⟩
        · rw [List.mem_singleton.mp h]; exact ⟨rfl, hk⟩
      refine ⟨mtFromLeafNodes [Node.prunedLeaf k0 h0, Node.fullLeaf k v] d, [k], ?_, by simp, ?_⟩
      · simp [mtPutKeys, leafPutLoop, isEmptyN, hk0]
      · rw [getKeys_build 256 d _ k (by omega) hgood2 hdist2]
        simp [nodeKey, hk0]
  | inner l r ihl ihr =>
    intro d k v hk hp hv hnp hag
    obtain ⟨hs1, hs2, hp3, hp4⟩ := pathsOK_inner l r d hp
    obtain ⟨hvl, hvr⟩ := leavesValid_inner l r hv
    have hnpu : noPrunedInnerPath (.inner l r) k d =
        (if keySide k d ≠ 0 then noPrunedInnerPath l k (d + 1)
          else noPrunedInnerPath r k (d + 1)) := rfl
    by_cases hq : keySide k d = 0
    · have hfl : ([(k, Node.fullLeaf k v)].filter fun it =>
          decide (keySide it.1 d ≠ 0)) = [] := by simp [hq]
      have hfr : ([(k, Node.fullLeaf k v)].filter fun it =>
          decide (keySide it.1 d = 0)) = [(k, Node.fullLeaf k v)] := by simp [hq]
      have hnp2 : noPrunedInnerPath r k (d + 1) = true := by
        rw [hnpu, if_neg (fun hc => hc hq)] at hnp
        exact hnp
      have hag2 : ∀ ln ∈ leavesOf r, ∀ j, j < d + 1 →
          keySide (nodeKey ln) j = keySide k j := by
        intro ln hln j hj
        rcases Nat.lt_succ_iff_lt_or_eq.mp hj with h | h
        · exact hag ln (by rw [leavesOf]; exact List.mem_append.mpr (Or.inr hln)) j h
        · rw [h, hs2 ln hln, hq]
      obtain ⟨tn, ch, hput, hkch, hget⟩ := ihr (d + 1) k v hk hp4 hvr hnp2 hag2
      by_cases hif : tn = r
      · refine ⟨Node.inner l r, [] ++ ch, ?_, by simpa using hkch, ?_⟩
        · simp only [mtPutKeys, hfl, hfr, hput, mtPutKeys_nil_items,
            if_pos (List.cons_ne_nil _ _)]
          rw [if_pos (by simp [hif])]
        · exact getKeys_inner_right l r k d _ hq (hif ▸ hget)
      · refine ⟨innerCtor l tn, [] ++ ch, ?_, by simpa using hkch, ?_⟩
        · simp only [mtPutKeys, hfl, hfr, hput, mtPutKeys_nil_items,
            if_pos (List.cons_ne_nil _ _)]
          rw [if_neg (by simp [hif])]
        · exact getKeys_innerCtor_right l tn k _ d hq hget
    · have hfl : ([(k, Node.fullLeaf k v)].filter fun it =>
          decide (keySide it.1 d ≠ 0)) = [(k, Node.fullLeaf k v)] := by simp [hq]
      have hfr : ([(k, Node.fullLeaf k v)].filter fun it =>
          decide (keySide it.1 d = 0)) = [] := by simp [hq]
      have hnp2 : noPrunedInnerPath l k (d + 1) = true := by
        rw [hnpu, if_pos hq] at hnp
        exact hnp
      have hag2 : ∀ ln ∈ leavesOf l, ∀ j, j < d + 1 →
          keySide (nodeKey ln) j = keySide k j := by
        intro ln hln j hj
        rcases Nat.lt_succ_iff_lt_or_eq.mp hj with h | h
        · exact hag ln (by rw [leavesOf]; exact List.mem_append.mpr (Or.inl hln)) j h
        · rw [h, side_eq_one_of_ne _ _ (hs1 ln hln), side_eq_one_of_ne _ _ hq]
      obtain ⟨tn, ch, hput, hkch, hget⟩ := ihl (d + 1) k v hk hp3 hvl hnp2 hag2
      by_cases hif : tn = l
      · refine ⟨Node.inner l r, ch ++ [], ?_, by simpa using hkch, ?_⟩
        · simp only [mtPutKeys, hfl, hfr, hput, mtPutKeys_nil_items,
            if_pos (List.cons_ne_nil _ _)]
          rw [if_pos (by simp [hif])]
        · exact getKeys_inner_left l r k d _ hq (hif ▸ hget)
      · refine ⟨innerCtor tn r, ch ++ [], ?_, by simpa using hkch, ?_⟩
        · simp only [mtPutKeys, hfl, hfr, hput, mtPutKeys_nil_items,
            if_pos (List.cons_ne_nil _ _)]
          rw [if_neg (by simp [hif])]
        · exact getKeys_innerCtor_left tn r k _ d hq hget

/-! ## Supporting lemmas for the claim theorems -/

/-- Pairwise-distinct valid keys make the wrapped leaf list pairwise
distinguishable from depth 0. -/
theorem distinct_of_items (items : List (Bytes × Bytes))
    (hval : ∀ kv ∈ items, validKey kv.1)
    (hne : (items.map Prod.fst).Pairwise (· ≠ ·)) :
    distinctFromN 0 (items.map fun kv => Node.fullLeaf kv.1 kv.2) := by
  rw [distinctFromN, List.pairwise_map]
  have hne2 : items.Pairwise (fun a b => a.1 ≠ b.1) := by
    rw [List.pairwise_map] at hne
    exact hne
  apply hne2.imp_of_mem
  intro a b ha hb hab
  exact validKey_sideDiff _ _ (hval a ha) (hval b hb) hab

/-- `keys()` distributes over the children of an inner node. -/
theorem mtKeysIter_inner (l r : Node) :
    mtKeysIter (.inner l r) = mtKeysIter l ++ mtKeysIter r := by
  unfold mtKeysIter
  rw [iterNodes, List.filterMap_append, List.filterMap_append]
  simp

/-- `values()` distributes over the children of an inner node. -/
theorem mtValuesIter_inner (l r : Node) :
    mtValuesIter (.inner l r) = mtValuesIter l ++ mtValuesIter r := by
  unfold mtValuesIter
  rw [iterNodes, List.filterMap_append, List.filterMap_append]
  simp

/-- `items()` distributes over the children of an inner node. -/
theorem mtItemsIter_inner (l r : Node) :
    mtItemsIter (.inner l r) = mtItemsIter l ++ mtItemsIter r := by
  unfold mtItemsIter
  rw [iterNodes, List.filterMap_append, List.filterMap_append]
  simp

/-! ## The claim theorems -/

/-- Claim C1 (refuted: the code never applies the hash function).  The
claim says every node's `hash` is obtained by applying the configured hash
function to the node's variant-specific byte layout, so the empty tree's
hash would be `H(0x00)`.  The `hash` property (lines 41-47) caches and
returns `calc_hash_data()` itself and never calls `hash_func`: the empty
tree's `hash` is the raw single tag byte `0x00`, which differs from
`H(0x00)` for every hash function whose digests are not exactly one byte
long (SHA-256 digests are 32 bytes). -/
theorem claimC1_hash_skips_hash_func (vh H : Bytes → Bytes)
    (hlen : (H [0x00]).length ≠ 1) :
    mtHash vh Node.empty = .ok [0x00] ∧
    mtHash vh Node.empty ≠ .ok (H [0x00]) := by
  refine ⟨rfl, fun hc => ?_⟩
  have hc2 : (Except.ok [0x00] : Except MTError Bytes) = .ok (H [0x00]) := hc
  have h2 : ([0x00] : Bytes) = H [0x00] := Except.ok.inj hc2
  exact hlen (by rw [← h2]; rfl)

theorem claimC1_hash_skips_hash_func_witness :
    mtHash (fun b => b) Node.empty = .ok [0x00] ∧
    mtHash (fun b => b) Node.empty ≠
      .ok ((fun _ => List.replicate 32 0) [0x00]) :=
  claimC1_hash_skips_hash_func (fun b => b) (fun _ => List.replicate 32 0)
    (by decide)

/-- Claim C5 (refuted: `merge` never reaches the hash comparison).  The
claim says `A.merge(B)` fails with a hash-mismatch error exactly when the
root hashes differ and otherwise combines the information of both trees.
The first statement of `merge` (line 184) evaluates the undefined name
`ininstance`, so every call raises `NameError` before any hash is
compared: two empty trees (equal hashes) fail exactly like a leaf merged
with an empty tree (different hashes). -/
theorem claimC5_merge_always_name_errors :
    merge Node.empty Node.empty = .error (.nameError "ininstance") ∧
    merge (Node.fullLeaf k00 [97]) Node.empty =
      .error (.nameError "ininstance") :=
  ⟨rfl, rfl⟩

/-- Claim C6 (refuted: the pruned-node failure is a `NameError`, not a
`PrunedError`).  The claim says an operation whose requested key reaches a
`PrunedInner` fails with `Pruned(op, key, depth)` while an empty request
passes through unchanged.  The raise statements of
`PrunedInnerNodeClass._mt_get_keys` and `._mt_put_keys` (lines 407, 415)
evaluate the undefined name `key` (and `PrunedError.__init__` lacks
`self`), so the operation raises `NameError` instead.  The empty-request
pass-through conjuncts do hold. -/
theorem claimC6_pruned_inner_name_errors :
    mtGetKeys (Node.prunedInner [9]) [k00] 0 = .error (.nameError "key") ∧
    mtPutKeys (Node.prunedInner [9]) [(k00, Node.fullLeaf k00 [97])] 0 =
      .error (.nameError "key") ∧
    mtGetKeys (Node.prunedInner [9]) [] 0 = .ok [] ∧
    mtPutKeys (Node.prunedInner [9]) [] 0 = .ok (Node.prunedInner [9], []) :=
  ⟨rfl, rfl, rfl, rfl⟩

/-- Claim C8, counterexample: `keys()` yields `node.key` of every visited
node that has a `key` attribute, and `PrunedLeafNodeClass` stores one, so
a pruned leaf does contribute its key to `keys()` — the claim that pruned
nodes contribute nothing to any of the three iterations fails. -/
theorem claimC8_pruned_leaf_key_yielded :
    mtKeysIter (Node.prunedLeaf k00 [9]) = [k00] ∧
    ([k00] : List Bytes) ≠ [] :=
  ⟨rfl, by simp⟩

/-- Claim C8 (corrected): `values()` and `items()` indeed draw only from
full leaves, but `keys()` yields the key of every leaf node, pruned
leaves included; only `Empty`, `Inner` and `PrunedInner` nodes contribute
nothing to it. -/
theorem claimC8_iter_corrected (t : Node) :
    mtKeysIter t = allLeafKeys t ∧
    mtValuesIter t = fullLeafValues t ∧
    mtItemsIter t = fullLeafItems t := by
  induction t with
  | inner l r ihl ihr =>
    rw [mtKeysIter_inner, mtValuesIter_inner, mtItemsIter_inner, allLeafKeys,
      fullLeafValues, fullLeafItems, ihl.1, ihl.2.1, ihl.2.2, ihr.1, ihr.2.1,
      ihr.2.2]
    exact ⟨rfl, rfl, rfl⟩
  | empty => exact ⟨rfl, rfl, rfl⟩
  | prunedInner h => exact ⟨rfl, rfl, rfl⟩
  | fullLeaf k v => exact ⟨rfl, rfl, rfl⟩
  | prunedLeaf k h => exact ⟨rfl, rfl, rfl⟩

/-- Claim C9 (confirmed): every tree reachable through the public API —
the empty tree, bulk construction from pairwise-distinct valid keys, and
successful `put` / `remove` steps with valid keys — satisfies the guarded
property of the `assert` in `InnerNodeClass.__new__`: whenever both
children of an inner node are leaf nodes, the left child's key is
strictly greater (lexicographically) than the right child's key. -/
theorem claimC9_inner_leaf_order (t : Node) (ht : Reachable t) :
    leafOrder t = true := by
  obtain ⟨L, hg, hd, heq⟩ := reach_canon t ht
  subst heq
  exact leafOrder_build 256 0 L (by omega) hg hd
    (fun x _ y _ j hj => absurd hj (Nat.not_lt_zero j))

theorem claimC9_inner_leaf_order_witness :
    leafOrder (fromItems [(k00, [97]), (kFF, [98])]) = true :=
  claimC9_inner_leaf_order _
    (Reachable.bulk [(k00, [97]), (kFF, [98])] (by decide) (by decide))

/-- Claim C2 (refuted: the program cannot produce such a proof).  The
claim describes `prove_contains(Q)`, which no class of the module
defines; the public stub `prove_existence` (lines 79-80) has a docstring
for a body and so returns `None` rather than a tree (first conjunct).
The `prove=True` machinery that does exist fails on its own: an inner
node that receives no queried keys calls the undefined classmethod
`PrunedInnerNodeClass.from_inner_node` (line 336) — hit here by the
inner left subtree of a two-level tree whose only queried key routes
right (second conjunct); and at a leaf the positionally passed `prove`
flag lands in `ignore_missing`, so an unqueried full leaf returns `None`
and the assembled result contains `None` where a pruned leaf should be,
hence is no tree at all (third conjunct).  Finally, even a correctly
pruned result could not have the same root hash as the input: the `hash`
of a `PrunedInner` raises `NotImplementedError`, since the class defines
no `calc_hash_data` (fourth conjunct). -/
theorem claimC2_prove_machinery_broken :
    (∀ t : Node, ∀ keys : List Bytes, prove_existence t keys = none) ∧
    mtGetKeysProve wTreeDeep [k00] 0 =
      .error (.attributeError "from_inner_node") ∧
    mtGetKeysProve wTree2 [k00] 0 =
      .ok (.innerObj .pyNone (.ofNode (.fullLeaf k00 [97]))) ∧
    (∀ vh : Bytes → Bytes, ∀ h : Bytes,
      mtHash vh (.inner (.prunedInner h) (.fullLeaf k00 [97])) =
        .error .notImplementedError) :=
  ⟨fun _ _ => rfl, rfl, rfl, fun _ _ => rfl⟩

/-- Claim C3 (confirmed): for pairwise-distinct valid keys, the tree (and
hence the root hash) built in bulk from the collection is invariant under
permutation of the input, and repeatedly applying `put` starting from the
empty tree, in any order, succeeds and yields a tree with the same root
hash as the bulk build. -/
theorem claimC3_hash_set_determined (vh : Bytes → Bytes)
    (K Kp : List (Bytes × Bytes))
    (hval : ∀ kv ∈ K, validKey kv.1)
    (hne : (K.map Prod.fst).Pairwise (· ≠ ·))
    (hperm : Kp.Perm K) :
    mtHash vh (fromItems Kp) = mtHash vh (fromItems K) ∧
    ∃ T, putAll Kp = .ok T ∧ mtHash vh T = mtHash vh (fromItems K) := by
  have hvalp : ∀ kv ∈ Kp, validKey kv.1 := fun kv h => hval kv (hperm.subset h)
  have hnep : (Kp.map Prod.fst).Pairwise (· ≠ ·) :=
    ((hperm.map Prod.fst).pairwise_iff (fun h => Ne.symm h)).mpr hne
  have hnodes : fromItems Kp = fromItems K := by
    unfold fromItems
    exact build_perm 256 0 _ _ (by omega) (distinct_of_items Kp hvalp hnep)
      (hperm.map _)
  refine ⟨by rw [hnodes], fromItems K, ?_, rfl⟩
  have hfold := foldPuts_from Kp [] (fun ln h => absurd h (List.not_mem_nil ln))
    List.Pairwise.nil hvalp (fun kv _ => by simp) hnep
  have hstart : putAll Kp =
      Kp.foldlM (fun t kv => put t kv.1 kv.2) (mtFromLeafNodes [] 0) := by
    rw [mtFromLeafNodes_nil]
    rfl
  rw [hstart, hfold, List.nil_append, ← hnodes]
  rfl

theorem claimC3_hash_set_determined_witness :
    mtHash (fun b => b) (fromItems [(kFF, [98]), (k00, [97])]) =
      mtHash (fun b => b) (fromItems [(k00, [97]), (kFF, [98])]) ∧
    ∃ T, putAll [(kFF, [98]), (k00, [97])] = .ok T ∧
      mtHash (fun b => b) T =
        mtHash (fun b => b) (fromItems [(k00, [97]), (kFF, [98])]) :=
  claimC3_hash_set_determined (fun b => b) [(k00, [97]), (kFF, [98])]
    [(kFF, [98]), (k00, [97])] (by decide) (by decide)
    (List.Perm.swap (k00, [97]) (kFF, [98]) [])

/-- Claim C4 (confirmed): on a tree whose leaf keys are valid and
correctly routed and with no pruned inner node along the path of the
valid key `k`, `put(k, v)` succeeds and looking `k` up in the result
returns exactly `v`. -/
theorem claimC4_put_then_get (T : Node) (k v : Bytes) (hk : validKey k)
    (hp : pathsOK T 0 = true) (hv : leavesValid T = true)
    (hnp : noPrunedInnerPath T k 0 = true) :
    ∃ T2, put T k v = .ok T2 ∧ getItem T2 k = .ok v := by
  obtain ⟨tn, ch, hput, hkch, hget⟩ := putKeys_get T 0 k v hk hp hv hnp
    (fun ln _ j hj => absurd hj (Nat.not_lt_zero j))
  refine ⟨tn, ?_, ?_⟩
  · unfold put
    rw [if_neg (by simp [hk.1])]
    simp only [hput]
    rw [if_pos hkch]
  · unfold getItem
    rw [if_neg (by simp [hk.1]), hget]
    simp [lookupRes]

theorem claimC4_put_then_get_witness :
    validKey kFF ∧ pathsOK wTreePruned 0 = true ∧
    leavesValid wTreePruned = true ∧
    noPrunedInnerPath wTreePruned kFF 0 = true ∧
    ∃ T2, put wTreePruned kFF [99] = .ok T2 ∧ getItem T2 kFF = .ok [99] :=
  ⟨by decide, by decide, by decide, by decide,
    claimC4_put_then_get wTreePruned kFF [99] (by decide) (by decide)
      (by decide) (by decide)⟩

/-- Claim C7 (confirmed): putting a fresh valid key into a well-formed
unpruned tree and then removing it succeeds and restores a tree with the
same root hash (indeed the very same tree). -/
theorem claimC7_put_remove_hash (T : Node) (k v : Bytes) (vh : Bytes → Bytes)
    (hu : unprunedN T = true) (hc : compactOK T = true)
    (hp : pathsOK T 0 = true) (hv : leavesValid T = true)
    (hk : validKey k) (hout : k ∉ (leavesOf T).map nodeKey) :
    ∃ T1 T2, put T k v = .ok T1 ∧ remove T1 k = .ok T2 ∧
      mtHash vh T2 = mtHash vh T := by
  have hrepr := repr_build T 0 hu hc hp hv
  have hg := goodLeaves_of_tree T hv
  have hd := distinct_of_pathsOK T 0 hp hv
  have hput : put T k v =
      .ok (mtFromLeafNodes (applyL (leavesOf T) k (.fullLeaf k v)) 0) := by
    conv_lhs => rw [← hrepr]
    exact put_build (leavesOf T) k v hg hd hk
  have hA : applyL (leavesOf T) k (.fullLeaf k v) =
      leavesOf T ++ [.fullLeaf k v] := by
    unfold applyL
    rw [if_neg (by simp [isEmptyN]), if_neg hout]
  have hg2 : goodLeaves (applyL (leavesOf T) k (.fullLeaf k v)) :=
    applyL_good (leavesOf T) k _ hg (Or.inr ⟨rfl, hk, rfl⟩)
  have hd2 : distinctFromN 0 (applyL (leavesOf T) k (.fullLeaf k v)) :=
    applyL_distinct 0 (leavesOf T) k _ hd (Or.inr rfl)
      (hdiff_of_good (leavesOf T) k hg hk)
  have hmem : k ∈ (applyL (leavesOf T) k (.fullLeaf k v)).map nodeKey := by
    rw [hA]
    simp [nodeKey]
  have hrem := remove_build_mem (applyL (leavesOf T) k (.fullLeaf k v)) k
    hg2 hd2 hk hmem
  have hA2 : applyL (leavesOf T ++ [Node.fullLeaf k v]) k .empty =
      leavesOf T := by
    have h1 : applyL (leavesOf T ++ [Node.fullLeaf k v]) k .empty =
        (leavesOf T ++ [Node.fullLeaf k v]).filter fun ln =>
          decide (nodeKey ln ≠ k) := by
      simp [applyL, isEmptyN]
    have h2 : (leavesOf T).filter (fun ln => decide (nodeKey ln ≠ k)) =
        leavesOf T :=
      List.filter_eq_self.mpr (fun a ha => by
        simp only [decide_eq_true_eq]
        intro he
        exact hout (List.mem_map.mpr ⟨a, ha, he⟩))
    have h3 : ([Node.fullLeaf k v].filter fun ln => decide (nodeKey ln ≠ k)) =
        [] := by
      simp [nodeKey]
    rw [h1, List.filter_append, h2, h3, List.append_nil]
  refine ⟨mtFromLeafNodes (applyL (leavesOf T) k (.fullLeaf k v)) 0, T, hput,
    ?_, rfl⟩
  rw [hrem, hA, hA2, hrepr]

theorem claimC7_put_remove_hash_witness :
    unprunedN (Node.fullLeaf k00 [97]) = true ∧
    kFF ∉ (leavesOf (Node.fullLeaf k00 [97])).map nodeKey ∧
    ∃ T1 T2, put (Node.fullLeaf k00 [97]) kFF [98] = .ok T1 ∧
      remove T1 kFF = .ok T2 ∧
      mtHash (fun b => b) T2 = mtHash (fun b => b) (Node.fullLeaf k00 [97]) :=
  ⟨by decide, by decide,
    claimC7_put_remove_hash (Node.fullLeaf k00 [97]) kFF [98] (fun b => b)
      (by decide) (by decide) (by decide) (by decide) (by decide) (by decide)⟩

/-- Claim C10 (confirmed): on a well-formed unpruned tree, `put(k, v)`
succeeds and leaves the lookup outcome (value or `KeyError`) of every
other valid key unchanged, and so does any successful `remove(k)`. -/
theorem claimC10_lookup_frame (T : Node) (k kq v : Bytes)
    (hu : unprunedN T = true) (hc : compactOK T = true)
    (hp : pathsOK T 0 = true) (hv : leavesValid T = true)
    (hk : validKey k) (hq : validKey kq) (hne : kq ≠ k) :
    (∃ T1, put T k v = .ok T1 ∧ getItem T1 kq = getItem T kq) ∧
    (∀ T2, remove T k = .ok T2 → getItem T2 kq = getItem T kq) := by
  have hrepr := repr_build T 0 hu hc hp hv
  have hg := goodLeaves_of_tree T hv
  have hd := distinct_of_pathsOK T 0 hp hv
  have hTq : getItem T kq =
      match (leavesOf T).filter fun ln => decide (nodeKey ln = kq) with
      | [] => .error (.keyError kq)
      | Node.fullLeaf _ v :: _ => .ok v
      | Node.prunedLeaf _ _ :: _ => .error (.nameError "PrunedError")
      | _ :: _ => .error .assertionError := by
    conv_lhs => rw [← hrepr]
    exact getItem_build (leavesOf T) kq hg hd hq.1
  constructor
  · have hput : put T k v =
        .ok (mtFromLeafNodes (applyL (leavesOf T) k (.fullLeaf k v)) 0) := by
      conv_lhs => rw [← hrepr]
      exact put_build (leavesOf T) k v hg hd hk
    refine ⟨_, hput, ?_⟩
    have hg2 := applyL_good (leavesOf T) k (.fullLeaf k v) hg
      (Or.inr ⟨rfl, hk, rfl⟩)
    have hd2 := applyL_distinct 0 (leavesOf T) k (.fullLeaf k v) hd (Or.inr rfl)
      (hdiff_of_good (leavesOf T) k hg hk)
    rw [getItem_build (applyL (leavesOf T) k (.fullLeaf k v)) kq hg2 hd2 hq.1,
      hTq]
    have hfr : (applyL (leavesOf T) k (.fullLeaf k v)).filter
        (fun ln => decide (nodeKey ln = kq)) =
        (leavesOf T).filter fun ln => decide (nodeKey ln = kq) :=
      applyL_filter_false (leavesOf T) k (.fullLeaf k v) (Or.inr ⟨rfl, rfl⟩)
        (fun b => decide (b = kq))
        (by rw [decide_eq_false_iff_not]; exact fun h => hne h.symm)
    rw [hfr]
  · intro T2 hT2
    by_cases hmem : k ∈ (leavesOf T).map nodeKey
    · have hrem : remove T k =
          .ok (mtFromLeafNodes (applyL (leavesOf T) k .empty) 0) := by
        conv_lhs => rw [← hrepr]
        exact remove_build_mem (leavesOf T) k hg hd hk hmem
      rw [hrem] at hT2
      have hT2e := Except.ok.inj hT2
      subst hT2e
      have hg2 := applyL_good (leavesOf T) k .empty hg (Or.inl rfl)
      have hd2 := applyL_distinct 0 (leavesOf T) k .empty hd (Or.inl rfl)
        (hdiff_of_good (leavesOf T) k hg hk)
      rw [getItem_build (applyL (leavesOf T) k .empty) kq hg2 hd2 hq.1, hTq]
      have hfr : (applyL (leavesOf T) k .empty).filter
          (fun ln => decide (nodeKey ln = kq)) =
          (leavesOf T).filter fun ln => decide (nodeKey ln = kq) :=
        applyL_filter_false (leavesOf T) k .empty (Or.inl rfl)
          (fun b => decide (b = kq))
          (by rw [decide_eq_false_iff_not]; exact fun h => hne h.symm)
      rw [hfr]
    · have hrem : remove T k = .error (.keyError k) := by
        conv_lhs => rw [← hrepr]
        exact remove_build_not_mem (leavesOf T) k hg hd hk hmem
      rw [hrem] at hT2
      exact absurd hT2 (by simp)

theorem claimC10_lookup_frame_witness :
    validKey kFF ∧ validKey k00 ∧ k00 ≠ kFF ∧
    ((∃ T1, put wTree2 kFF [99] = .ok T1 ∧
        getItem T1 k00 = getItem wTree2 k00) ∧
     (∀ T2, remove wTree2 kFF = .ok T2 →
        getItem T2 k00 = getItem wTree2 k00)) :=
  ⟨by decide, by decide, by decide,
    claimC10_lookup_frame wTree2 kFF k00 [99] (by decide) (by decide)
      (by decide) (by decide) (by decide) (by decide) (by decide)⟩

end Merbinner
